import Mathlib

/-!
# Verification of the GTDynamics dynamics-graph construction layer

Shallow embedding of the dynamics-graph builder (`src/dynamics/DynamicsGraph.cpp`),
the forward-dynamics simulator (`src/dynamics/Simulator.h`) and the robot-model
assembly (`src/cpp/UniversalRobot.cpp`).

Modelling conventions:
* C++ `double` is modelled as `ℚ` (exact field arithmetic; the properties verified
  here are about formula structure and graph structure, not rounding).
* `throw std::runtime_error(msg)` is modelled as `Except.error msg`.
* A `shared_ptr`/`weak_ptr` that may be null is modelled as `Option`; dereferencing
  a null pointer (undefined behaviour in C++) is modelled as the distinguished
  outcome `UBErr.nullDereference`.
* A gtsam factor is modelled by a constructor carrying exactly the variable keys
  (and, for expression factors, the residual expression) that the corresponding
  C++ constructor call passes.  Numeric payloads that no verified property
  depends on (noise models, inertia matrices, forward-kinematics poses/twists,
  right-hand-side vectors) are omitted; the planar-jacobian payload is kept
  because it is the subject of one of the properties.
-/

namespace GTD

/-- Variable keys of the dynamics graph, mirroring `PoseKey`, `TwistKey`,
`TwistAccelKey`, `JointAngleKey`, `JointVelKey`, `JointAccelKey`, `TorqueKey`,
`WrenchKey` and `PhaseKey` from the source. -/
inductive DynKey where
  | pose (i : Int) (t : Int)
  | twist (i : Int) (t : Int)
  | twistAccel (i : Int) (t : Int)
  | jointAngle (j : Int) (t : Int)
  | jointVel (j : Int) (t : Int)
  | jointAccel (j : Int) (t : Int)
  | torque (j : Int) (t : Int)
  | wrench (i : Int) (j : Int) (t : Int)
  | phase (p : Nat)
  deriving DecidableEq

/-- A link of the robot model, as seen by the dynamics-graph builder:
`getID()`, `name()`, `isFixed()` and `getJoints()` (the IDs of the incident
joints, in the order the C++ vector stores them).  Mass/inertia payloads are
omitted (no verified property depends on their values). -/
structure RobotLink where
  id : Int
  name : String
  isFixed : Bool
  joints : List Int
  deriving DecidableEq

/-- A joint of the robot model, as seen by the dynamics-graph builder:
`getID()`, `name()`, `parentLink()` and `childLink()` (link IDs). -/
structure RobotJoint where
  id : Int
  name : String
  parent : Int
  child : Int
  deriving DecidableEq

/-- The robot model facade used by the builder: `links()` and `joints()`
return the stored vectors in order; `base_name_` is carried but never read by
the graph builders. -/
structure UniversalRobot where
  links : List RobotLink
  joints : List RobotJoint
  baseName : String
  deriving DecidableEq

/-- gtsam `Double_` expressions, as used by `collocationFactors` and
`multiPhaseCollocationFactors`: constants, variable keys, sums, differences,
scalar multiples, and the binary `multDouble` product of two expressions. -/
inductive Expr where
  | const (c : ℚ)
  | var (k : DynKey)
  | add (a b : Expr)
  | sub (a b : Expr)
  | smul (c : ℚ) (e : Expr)
  | mult (a b : Expr)
  deriving DecidableEq

/-- Evaluate an expression under an assignment of values to keys. -/
def Expr.eval (asg : DynKey → ℚ) : Expr → ℚ
  | .const c => c
  | .var k => asg k
  | .add a b => a.eval asg + b.eval asg
  | .sub a b => a.eval asg - b.eval asg
  | .smul c e => c * e.eval asg
  | .mult a b => a.eval asg * b.eval asg

/-- The variable keys referenced by an expression. -/
def Expr.keys : Expr → List DynKey
  | .const _ => []
  | .var k => [k]
  | .add a b => a.keys ++ b.keys
  | .sub a b => a.keys ++ b.keys
  | .smul _ e => e.keys
  | .mult a b => a.keys ++ b.keys

/-- Nonlinear factors emitted by the builder.  Each constructor corresponds to
one C++ factor constructor call and carries exactly the keys passed there. -/
inductive Factor where
  | priorPose (k : DynKey)
  | priorTwist (k : DynKey)
  | priorTwistAccel (k : DynKey)
  | poseFactor (kp1 kp2 kq : DynKey)
  | twistFactor (kt1 kt2 kq kv : DynKey)
  | twistAccelFactor (ktw ka1 ka2 kq kv ka : DynKey)
  | wrench0 (kt ka kp : DynKey)
  | wrench1 (kt ka kw1 kp : DynKey)
  | wrench2 (kt ka kw1 kw2 kp : DynKey)
  | wrench3 (kt ka kw1 kw2 kw3 kp : DynKey)
  | wrench4 (kt ka kw1 kw2 kw3 kw4 kp : DynKey)
  | wrenchEq (kw1 kw2 kq : DynKey)
  | torqueFactor (kw ktau : DynKey)
  | wrenchPlanar (kw : DynKey) (axis : ℚ × ℚ × ℚ)
  | exprFactor (e : Expr)
  deriving DecidableEq

/-- The variable keys referenced by a factor. -/
def factorKeys : Factor → List DynKey
  | .priorPose k => [k]
  | .priorTwist k => [k]
  | .priorTwistAccel k => [k]
  | .poseFactor k1 k2 k3 => [k1, k2, k3]
  | .twistFactor k1 k2 k3 k4 => [k1, k2, k3, k4]
  | .twistAccelFactor k1 k2 k3 k4 k5 k6 => [k1, k2, k3, k4, k5, k6]
  | .wrench0 k1 k2 k3 => [k1, k2, k3]
  | .wrench1 k1 k2 k3 k4 => [k1, k2, k3, k4]
  | .wrench2 k1 k2 k3 k4 k5 => [k1, k2, k3, k4, k5]
  | .wrench3 k1 k2 k3 k4 k5 k6 => [k1, k2, k3, k4, k5, k6]
  | .wrench4 k1 k2 k3 k4 k5 k6 k7 => [k1, k2, k3, k4, k5, k6, k7]
  | .wrenchEq k1 k2 k3 => [k1, k2, k3]
  | .torqueFactor k1 k2 => [k1, k2]
  | .wrenchPlanar k _ => [k]
  | .exprFactor e => e.keys

/-- The `DynamicsGraphBuilder::qFactors`: prior-pose factors for the fixed links
(link loop), then one pose factor per joint (joint loop). -/
def qFactors (robot : UniversalRobot) (t : Int) : List Factor :=
  (robot.links.filterMap fun l =>
    if l.isFixed then some (Factor.priorPose (.pose l.id t)) else none) ++
  (robot.joints.map fun j =>
    Factor.poseFactor (.pose j.parent t) (.pose j.child t) (.jointAngle j.id t))

/-- The `DynamicsGraphBuilder::vFactors`: zero-twist priors for the fixed links,
then one twist factor per joint. -/
def vFactors (robot : UniversalRobot) (t : Int) : List Factor :=
  (robot.links.filterMap fun l =>
    if l.isFixed then some (Factor.priorTwist (.twist l.id t)) else none) ++
  (robot.joints.map fun j =>
    Factor.twistFactor (.twist j.parent t) (.twist j.child t)
      (.jointAngle j.id t) (.jointVel j.id t))

/-- The `DynamicsGraphBuilder::aFactors`: zero-acceleration priors for the fixed
links, then one twist-acceleration factor per joint. -/
def aFactors (robot : UniversalRobot) (t : Int) : List Factor :=
  (robot.links.filterMap fun l =>
    if l.isFixed then some (Factor.priorTwistAccel (.twistAccel l.id t)) else none) ++
  (robot.joints.map fun j =>
    Factor.twistAccelFactor (.twist j.child t) (.twistAccel j.parent t)
      (.twistAccel j.child t) (.jointAngle j.id t) (.jointVel j.id t)
      (.jointAccel j.id t))

/-- The fixed-arity wrench-factor family of
`DynamicsGraphBuilder::dynamicsFactors`, selected by the incident-joint id
list of a non-fixed link with id `i`:`WrenchFactor0` … `WrenchFactor4`, and
`throw std::runtime_error("Wrench factor not defined")` for any higher
count. -/
def wrenchFactorOf (i : Int) (t : Int) : List Int → Except String Factor
  | [] => .ok (.wrench0 (.twist i t) (.twistAccel i t) (.pose i t))
  | [j1] => .ok (.wrench1 (.twist i t) (.twistAccel i t)
      (.wrench i j1 t) (.pose i t))
  | [j1, j2] => .ok (.wrench2 (.twist i t) (.twistAccel i t)
      (.wrench i j1 t) (.wrench i j2 t) (.pose i t))
  | [j1, j2, j3] => .ok (.wrench3 (.twist i t) (.twistAccel i t)
      (.wrench i j1 t) (.wrench i j2 t) (.wrench i j3 t) (.pose i t))
  | [j1, j2, j3, j4] => .ok (.wrench4 (.twist i t) (.twistAccel i t)
      (.wrench i j1 t) (.wrench i j2 t) (.wrench i j3 t)
      (.wrench i j4 t) (.pose i t))
  | _ => .error "Wrench factor not defined"

/-- The wrench factor emitted for one non-fixed link. -/
def linkWrenchFactor (l : RobotLink) (t : Int) : Except String Factor :=
  wrenchFactorOf l.id t l.joints

/-- The link loop of `DynamicsGraphBuilder::dynamicsFactors`: non-fixed links
contribute their wrench factor (or raise), fixed links contribute nothing. -/
def dynamicsFactorsLinks (t : Int) : List RobotLink → Except String (List Factor)
  | [] => .ok []
  | l :: ls =>
    if l.isFixed then dynamicsFactorsLinks t ls
    else do
      let f ← linkWrenchFactor l t
      let rest ← dynamicsFactorsLinks t ls
      .ok (f :: rest)

/-- The joint loop of `DynamicsGraphBuilder::dynamicsFactors`: a wrench
equivalence factor, a torque factor, and (when a planar axis is supplied) a
planar wrench factor per joint. -/
def dynamicsFactorsJoints (robot : UniversalRobot) (t : Int)
    (planarAxis : Option (ℚ × ℚ × ℚ)) : List Factor :=
  robot.joints.flatMap fun j =>
    [Factor.wrenchEq (.wrench j.parent j.id t) (.wrench j.child j.id t)
       (.jointAngle j.id t),
     Factor.torqueFactor (.wrench j.child j.id t) (.torque j.id t)] ++
    (match planarAxis with
     | some ax => [Factor.wrenchPlanar (.wrench j.child j.id t) ax]
     | none => [])

/-- The `DynamicsGraphBuilder::dynamicsFactors`: the link loop (wrench balance
factors) followed by the joint loop (wrench equivalence / torque / planar
factors).  The `gravity` payload only enters the numeric right-hand side in the
source and is carried here unused. -/
def dynamicsFactors (robot : UniversalRobot) (t : Int)
    (gravity : Option (ℚ × ℚ × ℚ)) (planarAxis : Option (ℚ × ℚ × ℚ)) :
    Except String (List Factor) := do
  let _ := gravity
  let linkPart ← dynamicsFactorsLinks t robot.links
  .ok (linkPart ++ dynamicsFactorsJoints robot t planarAxis)

/-- The `DynamicsGraphBuilder::dynamicsFactorGraph`: union of q-, v-, a- and
dynamics factors for one timestep. -/
def dynamicsFactorGraph (robot : UniversalRobot) (t : Int)
    (gravity planarAxis : Option (ℚ × ℚ × ℚ)) : Except String (List Factor) := do
  let d ← dynamicsFactors robot t gravity planarAxis
  .ok (qFactors robot t ++ vFactors robot t ++ aFactors robot t ++ d)

/-- The collocation-scheme enumeration.  `Euler` and `Trapezoidal` are
implemented; the remaining values hit the `default:` branch, which throws
`"runge-kutta and hermite-simpson not implemented yet"`. -/
inductive CollocationScheme where
  | Euler
  | Trapezoidal
  | RungeKutta
  | HermiteSimpson
  deriving DecidableEq

/-- The Euler joint-angle collocation expression `q0_expr + dt * v0_expr -
q1_expr` built for joint id `j` between timesteps `t` and `t + 1`. -/
def eulerQExpr (j : Int) (t : Int) (dt : ℚ) : Expr :=
  .sub (.add (.var (.jointAngle j t)) (.smul dt (.var (.jointVel j t))))
    (.var (.jointAngle j (t + 1)))

/-- The Euler joint-velocity collocation expression `v0_expr + dt * a0_expr -
v1_expr`. -/
def eulerVExpr (j : Int) (t : Int) (dt : ℚ) : Expr :=
  .sub (.add (.var (.jointVel j t)) (.smul dt (.var (.jointAccel j t))))
    (.var (.jointVel j (t + 1)))

/-- The Trapezoidal joint-angle collocation expression
`q0_expr + 0.5 * dt * v0_expr + 0.5 * dt * v1_expr - q1_expr`. -/
def trapQExpr (j : Int) (t : Int) (dt : ℚ) : Expr :=
  .sub (.add (.add (.var (.jointAngle j t))
      (.smul ((1 : ℚ)/2 * dt) (.var (.jointVel j t))))
      (.smul ((1 : ℚ)/2 * dt) (.var (.jointVel j (t + 1)))))
    (.var (.jointAngle j (t + 1)))

/-- The Trapezoidal joint-velocity collocation expression
`v0_expr + 0.5 * dt * a0_expr + 0.5 * dt * a1_expr - v1_expr`. -/
def trapVExpr (j : Int) (t : Int) (dt : ℚ) : Expr :=
  .sub (.add (.add (.var (.jointVel j t))
      (.smul ((1 : ℚ)/2 * dt) (.var (.jointAccel j t))))
      (.smul ((1 : ℚ)/2 * dt) (.var (.jointAccel j (t + 1)))))
    (.var (.jointVel j (t + 1)))

/-- The `DynamicsGraphBuilder::collocationFactors`: per joint, two expression
factors of the selected scheme; any other scheme throws inside the joint loop. -/
def collocationFactorsJoints (t : Int) (dt : ℚ) (collocation : CollocationScheme) :
    List RobotJoint → Except String (List Factor)
  | [] => .ok []
  | j :: js => do
    let fs ← match collocation with
      | .Euler => Except.ok [Factor.exprFactor (eulerQExpr j.id t dt),
          Factor.exprFactor (eulerVExpr j.id t dt)]
      | .Trapezoidal => Except.ok [Factor.exprFactor (trapQExpr j.id t dt),
          Factor.exprFactor (trapVExpr j.id t dt)]
      | _ => Except.error "runge-kutta and hermite-simpson not implemented yet"
    let rest ← collocationFactorsJoints t dt collocation js
    .ok (fs ++ rest)

/-- The `DynamicsGraphBuilder::collocationFactors`. -/
def collocationFactors (robot : UniversalRobot) (t : Int) (dt : ℚ)
    (collocation : CollocationScheme) : Except String (List Factor) :=
  collocationFactorsJoints t dt collocation robot.joints

/-- The body of the `trajectoryFG` loop for the listed timesteps: for each `t`,
the one-step dynamics graph, then (when `t < num_steps`) the collocation
factors between `t` and `t + 1`. -/
def trajectoryFGLoop (robot : UniversalRobot) (numSteps : Nat) (dt : ℚ)
    (collocation : CollocationScheme) (gravity planarAxis : Option (ℚ × ℚ × ℚ)) :
    List Nat → Except String (List Factor)
  | [] => .ok []
  | t :: ts => do
    let d ← dynamicsFactorGraph robot t gravity planarAxis
    let c ← if t < numSteps then collocationFactors robot t dt collocation
            else .ok []
    let rest ← trajectoryFGLoop robot numSteps dt collocation gravity planarAxis ts
    .ok (d ++ c ++ rest)

/-- The `DynamicsGraphBuilder::trajectoryFG`: the loop above over
`t = 0 .. num_steps`. -/
def trajectoryFG (robot : UniversalRobot) (numSteps : Nat) (dt : ℚ)
    (collocation : CollocationScheme) (gravity planarAxis : Option (ℚ × ℚ × ℚ)) :
    Except String (List Factor) :=
  trajectoryFGLoop robot numSteps dt collocation gravity planarAxis
    (List.range (numSteps + 1))

/-- The Euler multi-phase joint-angle expression `q0_expr + v0dt - q1_expr`,
where `v0dt = multDouble(phase_expr, v0_expr)` multiplies the shared phase
duration variable with the joint velocity. -/
def mpEulerQExpr (j : Int) (t : Int) (phase : Nat) : Expr :=
  .sub (.add (.var (.jointAngle j t))
      (.mult (.var (.phase phase)) (.var (.jointVel j t))))
    (.var (.jointAngle j (t + 1)))

/-- The Euler multi-phase joint-velocity expression `v0_expr + a0dt - v1_expr`. -/
def mpEulerVExpr (j : Int) (t : Int) (phase : Nat) : Expr :=
  .sub (.add (.var (.jointVel j t))
      (.mult (.var (.phase phase)) (.var (.jointAccel j t))))
    (.var (.jointVel j (t + 1)))

/-- The Trapezoidal multi-phase joint-angle expression
`q0_expr + 0.5 * v0dt + 0.5 * v1dt - q1_expr`. -/
def mpTrapQExpr (j : Int) (t : Int) (phase : Nat) : Expr :=
  .sub (.add (.add (.var (.jointAngle j t))
      (.smul ((1 : ℚ)/2) (.mult (.var (.phase phase)) (.var (.jointVel j t)))))
      (.smul ((1 : ℚ)/2) (.mult (.var (.phase phase)) (.var (.jointVel j (t + 1))))))
    (.var (.jointAngle j (t + 1)))

/-- The Trapezoidal multi-phase joint-velocity expression
`v0_expr + 0.5 * a0dt + 0.5 * a1dt - v1_expr`. -/
def mpTrapVExpr (j : Int) (t : Int) (phase : Nat) : Expr :=
  .sub (.add (.add (.var (.jointVel j t))
      (.smul ((1 : ℚ)/2) (.mult (.var (.phase phase)) (.var (.jointAccel j t)))))
      (.smul ((1 : ℚ)/2) (.mult (.var (.phase phase)) (.var (.jointAccel j (t + 1))))))
    (.var (.jointVel j (t + 1)))

/-- The joint loop of `DynamicsGraphBuilder::multiPhaseCollocationFactors`. -/
def multiPhaseCollocationJoints (t : Int) (phase : Nat)
    (collocation : CollocationScheme) :
    List RobotJoint → Except String (List Factor)
  | [] => .ok []
  | j :: js => do
    let fs ← match collocation with
      | .Euler => Except.ok [Factor.exprFactor (mpEulerQExpr j.id t phase),
          Factor.exprFactor (mpEulerVExpr j.id t phase)]
      | .Trapezoidal => Except.ok [Factor.exprFactor (mpTrapQExpr j.id t phase),
          Factor.exprFactor (mpTrapVExpr j.id t phase)]
      | _ => Except.error "runge-kutta and hermite-simpson not implemented yet"
    let rest ← multiPhaseCollocationJoints t phase collocation js
    .ok (fs ++ rest)

/-- The `DynamicsGraphBuilder::multiPhaseCollocationFactors`: per joint, two
expression factors relating timesteps `t` and `t + 1` through the shared
`PhaseKey(phase)` duration variable. -/
def multiPhaseCollocationFactors (robot : UniversalRobot) (t : Int) (phase : Nat)
    (collocation : CollocationScheme) : Except String (List Factor) :=
  multiPhaseCollocationJoints t phase collocation robot.joints

/-- The in-phase part of the dynamics loop of `multiPhaseTrajectoryFG`:
`k` one-step graphs at timesteps `t + 1, …, t + k`. -/
def mpInPhase (robot : UniversalRobot) (gravity planarAxis : Option (ℚ × ℚ × ℚ)) :
    Int → Nat → Except String (List Factor)
  | _, 0 => .ok []
  | t, k + 1 => do
    let d ← dynamicsFactorGraph robot (t + 1) gravity planarAxis
    let rest ← mpInPhase robot gravity planarAxis (t + 1) k
    .ok (d ++ rest)

/-- The phase loop of the dynamics part of `multiPhaseTrajectoryFG`: each phase
contributes `phase_steps[phase] - 1` in-phase one-step graphs, then either the
final one-step graph (last phase) or the caller-supplied transition graph. -/
def mpDynPhases (gravity planarAxis : Option (ℚ × ℚ × ℚ)) :
    List (UniversalRobot × Nat) → List (List Factor) → Int →
    Except String (List Factor)
  | [], _, _ => .ok []
  | [(r, steps)], _, t => do
    let inph ← mpInPhase r gravity planarAxis t (steps - 1)
    let d ← dynamicsFactorGraph r (t + (steps - 1) + 1) gravity planarAxis
    .ok (inph ++ d)
  | (r, steps) :: p2 :: ps, tgs, t => do
    let inph ← mpInPhase r gravity planarAxis t (steps - 1)
    let rest ← mpDynPhases gravity planarAxis (p2 :: ps) tgs.tail
      (t + (steps - 1) + 1)
    .ok (inph ++ tgs.headD [] ++ rest)

/-- The inner loop of the collocation part of `multiPhaseTrajectoryFG`:
`k` collocation sub-graphs for `phase` at timesteps `t, t + 1, …`. -/
def mpCollocSteps (collocation : CollocationScheme) (r : UniversalRobot)
    (phase : Nat) : Int → Nat → Except String (List Factor)
  | _, 0 => .ok []
  | t, k + 1 => do
    let c ← multiPhaseCollocationFactors r t phase collocation
    let rest ← mpCollocSteps collocation r phase (t + 1) k
    .ok (c ++ rest)

/-- The phase loop of the collocation part of `multiPhaseTrajectoryFG`. -/
def mpCollocPhases (collocation : CollocationScheme) :
    List (UniversalRobot × Nat) → Nat → Int → Except String (List Factor)
  | [], _, _ => .ok []
  | (r, steps) :: ps, phase, t => do
    let c ← mpCollocSteps collocation r phase t steps
    let rest ← mpCollocPhases collocation ps (phase + 1) (t + steps)
    .ok (c ++ rest)

/-- A default robot value used only to model the unconditional `robots[0]`
access of the source. -/
def emptyRobot : UniversalRobot := ⟨[], [], ""⟩

/-- The `DynamicsGraphBuilder::multiPhaseTrajectoryFG`: the one-step graph at
`t = 0` for `robots[0]`, the per-phase dynamics/transition graphs, then the
per-phase collocation graphs. -/
def multiPhaseTrajectoryFG (robots : List UniversalRobot)
    (phaseSteps : List Nat) (transitionGraphs : List (List Factor))
    (collocation : CollocationScheme)
    (gravity planarAxis : Option (ℚ × ℚ × ℚ)) : Except String (List Factor) := do
  let d0 ← dynamicsFactorGraph (robots.headD emptyRobot) 0 gravity planarAxis
  let dyn ← mpDynPhases gravity planarAxis (robots.zip phaseSteps)
    transitionGraphs 0
  let col ← mpCollocPhases collocation (robots.zip phaseSteps) 0 0
  .ok (d0 ++ dyn ++ col)

/-- The `getPlanarJacobian`: selects one of three hard-coded 3×6 projection
matrices by testing whether the x, y or z component of the supplied axis equals
1, in that order.  When no branch matches, the C++ local `H_wrench` is returned
without ever being assigned; that uninitialized result is modelled as `none`. -/
def getPlanarJacobian (planarAxis : ℚ × ℚ × ℚ) : Option (List (List ℚ)) :=
  if planarAxis.1 = 1 then
    some [[0, 1, 0, 0, 0, 0],
          [0, 0, 1, 0, 0, 0],
          [0, 0, 0, 1, 0, 0]]
  else if planarAxis.2.1 = 1 then
    some [[1, 0, 0, 0, 0, 0],
          [0, 0, 1, 0, 0, 0],
          [0, 0, 0, 0, 1, 0]]
  else if planarAxis.2.2 = 1 then
    some [[1, 0, 0, 0, 0, 0],
          [0, 1, 0, 0, 0, 0],
          [0, 0, 0, 0, 0, 1]]
  else
    none

/-- Rows of the Gaussian (linear) per-timestep dynamics graph built by
`DynamicsGraphBuilder::linearDynamicsGraph`.  Each constructor corresponds to
one `graph.add` call and carries the keys passed there; the planar row also
carries its (possibly uninitialized) jacobian payload. -/
inductive LinFactor where
  | fixedAccelPrior (ka : DynKey)
  | wrenchBalance0 (ka : DynKey)
  | wrenchBalance1 (ka kw1 : DynKey)
  | wrenchBalance2 (ka kw1 kw2 : DynKey)
  | twistAccelRow (ka2 ka1 kacc : DynKey)
  | torqueRow (kw ktau : DynKey)
  | wrenchEqRow (kw1 kw2 : DynKey)
  | planarRow (kw : DynKey) (jac : Option (List (List ℚ)))
  deriving DecidableEq

/-- The wrench-balance rows of `linearDynamicsGraph` for a non-fixed link with
id `i`: one row for incident-joint counts 0, 1 or 2 — and, exactly as in the
source, nothing at all for any higher count (the `if`/`else if` chain has no
final `else`). -/
def linWrenchRowsOf (i : Int) (t : Int) : List Int → List LinFactor
  | [] => [LinFactor.wrenchBalance0 (.twistAccel i t)]
  | [j1] => [LinFactor.wrenchBalance1 (.twistAccel i t) (.wrench i j1 t)]
  | [j1, j2] => [LinFactor.wrenchBalance2 (.twistAccel i t)
      (.wrench i j1 t) (.wrench i j2 t)]
  | _ => []

/-- The rows one link contributes to the link loop of `linearDynamicsGraph`:
fixed links get a zero-acceleration prior row; non-fixed links get their
wrench-balance row (or silently nothing for three or more incident joints). -/
def linLinkRows (l : RobotLink) (t : Int) : List LinFactor :=
  if l.isFixed then [LinFactor.fixedAccelPrior (.twistAccel l.id t)]
  else linWrenchRowsOf l.id t l.joints

/-- The link loop of `linearDynamicsGraph`. -/
def linearDynamicsLinks (t : Int) (ls : List RobotLink) : List LinFactor :=
  ls.flatMap (fun l => linLinkRows l t)

/-- The joint loop of `linearDynamicsGraph`: a twist-acceleration row, a torque
row, a wrench-equivalence row, and (when a planar axis is supplied) a planar
row whose jacobian is `getPlanarJacobian(*planar_axis)`. -/
def linearDynamicsJoints (t : Int) (planarAxis : Option (ℚ × ℚ × ℚ)) :
    List RobotJoint → List LinFactor
  | [] => []
  | j :: js =>
    [LinFactor.twistAccelRow (.twistAccel j.child t) (.twistAccel j.parent t)
       (.jointAccel j.id t),
     LinFactor.torqueRow (.wrench j.child j.id t) (.torque j.id t),
     LinFactor.wrenchEqRow (.wrench j.parent j.id t) (.wrench j.child j.id t)] ++
    (match planarAxis with
     | some ax => [LinFactor.planarRow (.wrench j.child j.id t)
         (getPlanarJacobian ax)]
     | none => []) ++
    linearDynamicsJoints t planarAxis js

/-- The `DynamicsGraphBuilder::linearDynamicsGraph`: the link loop then the joint
loop.  The joint-angle/velocity/forward-kinematics inputs and the gravity
vector only determine numeric row payloads in the source and are carried here
unused.  Note this builder is total: it never throws. -/
def linearDynamicsGraph (robot : UniversalRobot) (t : Int)
    (gravity planarAxis : Option (ℚ × ℚ × ℚ)) : List LinFactor :=
  let _ := gravity
  linearDynamicsLinks t robot.links ++ linearDynamicsJoints t planarAxis robot.joints

/-! ## Simulator (`src/dynamics/Simulator.h`) -/

/-- The `UniversalRobot::JointValues` (`std::map<std::string, double>`), modelled
as an association list; `jvAt` models `std::map::at`, whose failure (a thrown
`std::out_of_range`) is modelled as `none`. -/
abbrev JointValues : Type := List (String × ℚ)

/-- The `std::map::at`: the stored value, or `none` for the out-of-range throw. -/
def jvAt (m : JointValues) (name : String) : Option ℚ :=
  List.lookup name m

/-- C++ truncating conversion from `double` to `int` (rounds toward zero),
used where `Simulator::reset(const double t)` assigns to the `int` member
`t_`. -/
def cppTrunc (q : ℚ) : Int := q.num.tdiv (q.den : Int)

/-- The state of a `Simulator` object: the immutable configuration
(`robot_`, `initial_angles_`, `initial_vels_`, `gravity_`, `planar_axis_`)
and the mutable simulation state (`t_`, `qs_`, `vs_`, `as_` — here `accels` —
and the accumulated `results_`, modelled as the list of per-step solved
acceleration records). -/
structure SimState where
  robot : UniversalRobot
  initialAngles : JointValues
  initialVels : JointValues
  gravity : Option (ℚ × ℚ × ℚ)
  planarAxis : Option (ℚ × ℚ × ℚ)
  t : Int
  qs : JointValues
  vs : JointValues
  accels : JointValues
  results : List (Int × JointValues)
  deriving DecidableEq

/-- The external linear solve inside `linearSolveFD` (gtsam
`GaussianFactorGraph::optimize`, out of scope per the spec), abstracted as a
deterministic function from the step inputs to the solved acceleration of each
joint name. -/
def Solver : Type := Int → JointValues → JointValues → JointValues → String → ℚ

/-- The `Simulator::reset`: restores `t_`, the initial angles and velocities, and
clears the accelerations and the accumulated results. -/
def resetSim (s : SimState) (tr : ℚ) : SimState :=
  { s with t := cppTrunc tr, qs := s.initialAngles, vs := s.initialVels,
           accels := [], results := [] }

/-- The `Simulator` constructor: stores the configuration and calls
`reset()`. -/
def mkSimulator (robot : UniversalRobot) (initialAngles initialVels : JointValues)
    (gravity planarAxis : Option (ℚ × ℚ × ℚ)) : SimState :=
  resetSim
    { robot := robot, initialAngles := initialAngles, initialVels := initialVels,
      gravity := gravity, planarAxis := planarAxis, t := 0,
      qs := [], vs := [], accels := [], results := [] } 0

/-- The `Simulator::forwardDynamics`: solve the one-step linear graph, append the
solved values to `results_`, and set `as_` to the solved acceleration of every
robot joint (`jointAccelsMap`). -/
def forwardDynamics (solver : Solver) (s : SimState) (torques : JointValues) :
    SimState :=
  let accels : JointValues :=
    s.robot.joints.map fun j => (j.name, solver s.t s.qs s.vs torques j.name)
  { s with accels := accels, results := s.results ++ [(s.t, accels)] }

/-- The `Simulator::integration`: one loop over the robot's joints building the
fresh maps `vs_new[name] = vs_.at(name) + dt * as_.at(name)` and
`qs_new[name] = qs_.at(name) + dt * vs_.at(name) + 0.5 * as_.at(name) * dt²`
(the angle update reads the pre-update velocity), then replaces `vs_` and
`qs_`.  A missing map entry (`std::map::at` throw) yields `none`. -/
def integration (s : SimState) (dt : ℚ) : Option SimState := do
  let pairs ← s.robot.joints.mapM fun j => do
    let v ← jvAt s.vs j.name
    let a ← jvAt s.accels j.name
    let q ← jvAt s.qs j.name
    pure ((j.name, v + dt * a),
          (j.name, q + dt * v + (1 : ℚ)/2 * a * dt ^ 2))
  pure { s with vs := pairs.map Prod.fst, qs := pairs.map Prod.snd }

/-- The `Simulator::step`: forward dynamics, then integration, then `t_++`. -/
def simStep (solver : Solver) (s : SimState) (torques : JointValues) (dt : ℚ) :
    Option SimState := do
  let s1 := forwardDynamics solver s torques
  let s2 ← integration s1 dt
  pure { s2 with t := s2.t + 1 }

/-- The `Simulator::simulate`: step once per torque record. -/
def simulateRun (solver : Solver) : SimState → List JointValues → ℚ →
    Option SimState
  | s, [], _ => some s
  | s, tq :: rest, dt => do
    let s' ← simStep solver s tq dt
    simulateRun solver s' rest dt

/-- The per-step state trajectory of `Simulator::simulate`: the full simulator
state after each successful step (cut short at the first failing step). -/
def simulateTrace (solver : Solver) : SimState → List JointValues → ℚ →
    List SimState
  | _, [], _ => []
  | s, tq :: rest, dt =>
    match simStep solver s tq dt with
    | none => []
    | some s' => s' :: simulateTrace solver s' rest dt

/-! ## Robot assembly (`src/cpp/UniversalRobot.cpp`) -/

namespace Urdf

/-- One entry of `urdf_ptr->joints_`: the joint name and the parent/child link
names it references. -/
structure UrdfJoint where
  name : String
  parentLinkName : String
  childLinkName : String
  deriving DecidableEq

/-- The parsed URDF description consumed by `extract_structure_from_urdf`:
`links_` (link names, in map key order) and `joints_`.  The per-link and
per-joint physical payloads play no role in the verified properties. -/
structure UrdfModel where
  links : List String
  joints : List UrdfJoint
  deriving DecidableEq

/-- A `shared_ptr`/`weak_ptr` to a heap object, identified by the link name it
was allocated for; `none` is the null pointer. -/
abbrev Ptr : Type := Option String

/-- A heap-allocated `LinkBody`: its name and the four reference lists updated
by `addChildLink` / `addChildJoint` / `addParentLink` / `addParentJoint`. -/
structure LinkBody where
  name : String
  childLinks : List Ptr
  childJoints : List Ptr
  parentLinks : List Ptr
  parentJoints : List Ptr
  deriving DecidableEq

/-- A constructed `LinkJoint`: its name, the strong parent-link reference and
the weak child-link reference it holds (either may be null). -/
structure LinkJoint where
  name : String
  parentLink : Ptr
  childLink : Ptr
  deriving DecidableEq

/-- Undefined behaviour encountered while running the translated code:
dereferencing a null `shared_ptr`/`weak_ptr`.  This is a crash, not a raised
C++ exception. -/
inductive UBErr where
  | nullDereference
  deriving DecidableEq

/-- The mutable state of `extract_structure_from_urdf`: the heap of allocated
`LinkBody` objects, and the two name maps (association lists in insertion
order; C++ `std::map` key order only affects the final vector order, on which
no verified property depends). -/
structure ExtractState where
  heap : List (String × LinkBody)
  nameToLinkBody : List (String × Ptr)
  nameToLinkJoint : List (String × LinkJoint)
  deriving DecidableEq

/-- The `std::map::operator[]` on a map of shared pointers: the stored pointer if
the key is present; otherwise a value-initialized (null) pointer is inserted
under the key and returned.  There is no not-found failure path. -/
def mapGetPtr (m : List (String × Ptr)) (key : String) :
    Ptr × List (String × Ptr) :=
  match List.lookup key m with
  | some v => (v, m)
  | none => (none, m ++ [(key, none)])

/-- Apply an update to the heap object at the given address. -/
def updateHeap (heap : List (String × LinkBody)) (addr : String)
    (f : LinkBody → LinkBody) : List (String × LinkBody) :=
  heap.map fun nb => if nb.1 = addr then (nb.1, f nb.2) else nb

/-- The per-joint body of the loop in `extract_structure_from_urdf`:
look up the parent and child pointers with `operator[]`, take the child's weak
pointer (a dereference), construct the `LinkJoint`, register it, then update
the parent's and child's reference lists (four more dereferences).  No name
validation occurs anywhere; an unresolved name produces a null pointer that is
dereferenced, which is undefined behaviour. -/
def extractJointStep (st : ExtractState) (j : UrdfJoint) :
    Except UBErr ExtractState :=
  let (parentPtr, m1) := mapGetPtr st.nameToLinkBody j.parentLinkName
  let (childPtr, m2) := mapGetPtr m1 j.childLinkName
  match childPtr with
  | none => .error .nullDereference
  | some childAddr =>
    let childWeak : Ptr := some childAddr
    let jrec : LinkJoint := ⟨j.name, parentPtr, childWeak⟩
    let st1 : ExtractState :=
      { st with nameToLinkBody := m2,
                nameToLinkJoint := st.nameToLinkJoint ++ [(j.name, jrec)] }
    match parentPtr with
    | none => .error .nullDereference
    | some parentAddr =>
      let h1 := updateHeap st1.heap parentAddr fun b =>
        { b with childLinks := b.childLinks ++ [childWeak],
                 childJoints := b.childJoints ++ [some j.name] }
      let h2 := updateHeap h1 childAddr fun b =>
        { b with parentLinks := b.parentLinks ++ [some parentAddr],
                 parentJoints := b.parentJoints ++ [some j.name] }
      .ok { st1 with heap := h2 }

/-- The joint loop of `extract_structure_from_urdf`. -/
def extractJoints : ExtractState → List UrdfJoint → Except UBErr ExtractState
  | st, [] => .ok st
  | st, j :: js => do
    let st' ← extractJointStep st j
    extractJoints st' js

/-- The `extract_structure_from_urdf`: allocate one `LinkBody` per URDF link, run
the joint loop, and return the pointer vectors collected from the two name
maps (including any null pointers `operator[]` inserted along the way). -/
def extract_structure_from_urdf (m : UrdfModel) :
    Except UBErr (List Ptr × List LinkJoint) := do
  let st0 : ExtractState :=
    { heap := m.links.map fun n => (n, ⟨n, [], [], [], []⟩),
      nameToLinkBody := m.links.map fun n => (n, some n),
      nameToLinkJoint := [] }
  let st ← extractJoints st0 m.joints
  .ok (st.nameToLinkBody.map Prod.snd, st.nameToLinkJoint.map Prod.snd)

/-- The name-map facade of a constructed `UniversalRobot`: `name_to_link_body_`
and `name_to_link_joint_`. -/
structure URobot where
  nameToLinkBody : List (String × Ptr)
  nameToLinkJoint : List (String × Ptr)
  deriving DecidableEq

/-- The `UniversalRobot` constructor: for each stored link/joint pointer,
insert `(ptr->name(), ptr)` into the corresponding name map.  Calling
`name()` dereferences the pointer (undefined behaviour when it is null); a
non-null pointer's name is the heap address it was allocated under. -/
def mkUniversalRobot (linkPtrs jointPtrs : List Ptr) : Except UBErr URobot := do
  let lbs ← linkPtrs.mapM fun p =>
    match p with
    | none => Except.error UBErr.nullDereference
    | some n => Except.ok ((n, some n) : String × Ptr)
  let ljs ← jointPtrs.mapM fun p =>
    match p with
    | none => Except.error UBErr.nullDereference
    | some n => Except.ok ((n, some n) : String × Ptr)
  .ok ⟨lbs, ljs⟩

/-- The `UniversalRobot::getLinkByName`: `return name_to_link_body_[name];` — the
`operator[]` lookup, which for an unknown name silently inserts and returns a
null pointer (the method is non-const: the map mutation is observable). -/
def getLinkByName (r : URobot) (name : String) : Ptr × URobot :=
  let (p, m') := mapGetPtr r.nameToLinkBody name
  (p, { r with nameToLinkBody := m' })

/-- The `UniversalRobot::getJointByName`: same pattern on `name_to_link_joint_`. -/
def getJointByName (r : URobot) (name : String) : Ptr × URobot :=
  let (p, m') := mapGetPtr r.nameToLinkJoint name
  (p, { r with nameToLinkJoint := m' })

end Urdf

/-! ## Helper lemmas -/

/-- Looking up a joint's name in a map built over the joints by name recovers
the value computed from that name (duplicate joint names map to the same
value, so the first hit is the right one). -/
theorem lookup_name_map (g : String → ℚ) :
    ∀ (js : List RobotJoint) (j : RobotJoint), j ∈ js →
      List.lookup j.name (js.map fun k => (k.name, g k.name)) = some (g j.name) := by
  intro js
  induction js with
  | nil => intro j h; cases h
  | cons j' rest ih =>
    intro j hmem
    simp only [List.map_cons, List.lookup_cons]
    by_cases hname : j.name = j'.name
    · simp [hname]
    · have : j ∈ rest := by
        rcases List.mem_cons.mp hmem with h | h
        · exact absurd (by rw [h]) hname
        · exact h
      have hbeq : (j.name == j'.name) = false := by
        simp [hname]
      rw [hbeq]
      exact ih j this

/-- The joint loop of `Simulator::integration` evaluated when every per-joint
map lookup succeeds. -/
theorem integration_mapM (qs vs acc : JointValues) (dt : ℚ)
    (qv vv av : String → ℚ) :
    ∀ js : List RobotJoint,
      (∀ j ∈ js, jvAt qs j.name = some (qv j.name)) →
      (∀ j ∈ js, jvAt vs j.name = some (vv j.name)) →
      (∀ j ∈ js, jvAt acc j.name = some (av j.name)) →
      (js.mapM fun j => do
          let v ← jvAt vs j.name
          let a ← jvAt acc j.name
          let q ← jvAt qs j.name
          pure ((j.name, v + dt * a),
                (j.name, q + dt * v + (1 : ℚ)/2 * a * dt ^ 2)))
        = some (js.map fun j =>
            ((j.name, vv j.name + dt * av j.name),
             (j.name, qv j.name + dt * vv j.name +
               (1 : ℚ)/2 * av j.name * dt ^ 2))) := by
  intro js
  induction js with
  | nil => intro _ _ _; rfl
  | cons j rest ih =>
    intro hq hv ha
    have hmem : j ∈ j :: rest := List.mem_cons_self j rest
    rw [List.mapM_cons]
    rw [hq j hmem, hv j hmem, ha j hmem,
        ih (fun x hx => hq x (List.mem_cons_of_mem _ hx))
           (fun x hx => hv x (List.mem_cons_of_mem _ hx))
           (fun x hx => ha x (List.mem_cons_of_mem _ hx))]
    rfl

/-- The `Simulator::integration` specified: when every lookup succeeds, the new
velocity map and angle map are exactly the semi-implicit Euler updates, both
reading the pre-update velocity. -/
theorem integration_spec (s : SimState) (dt : ℚ) (qv vv av : String → ℚ)
    (hq : ∀ j ∈ s.robot.joints, jvAt s.qs j.name = some (qv j.name))
    (hv : ∀ j ∈ s.robot.joints, jvAt s.vs j.name = some (vv j.name))
    (ha : ∀ j ∈ s.robot.joints, jvAt s.accels j.name = some (av j.name)) :
    integration s dt = some { s with
      vs := s.robot.joints.map fun j => (j.name, vv j.name + dt * av j.name),
      qs := s.robot.joints.map fun j =>
        (j.name, qv j.name + dt * vv j.name +
          (1 : ℚ)/2 * av j.name * dt ^ 2) } := by
  unfold integration
  rw [integration_mapM s.qs s.vs s.accels dt qv vv av s.robot.joints hq hv ha]
  simp [List.map_map, Function.comp]

/-- C4: One `Simulator::step` call updates, for every joint, the velocity
to `v_old + dt * a` and the angle to `q_old + dt * v_old + ½ * a * dt²`, where
`a` is the acceleration solved for that joint this step and `v_old` is the
velocity before the velocity update; this exact formula is applied to every
joint of the robot, with no configurable alternative. -/
theorem C4_step_semi_implicit_euler (solver : Solver) (s : SimState)
    (tq : JointValues) (dt : ℚ) (qv vv : String → ℚ)
    (hq : ∀ j ∈ s.robot.joints, jvAt s.qs j.name = some (qv j.name))
    (hv : ∀ j ∈ s.robot.joints, jvAt s.vs j.name = some (vv j.name)) :
    ∃ s', simStep solver s tq dt = some s' ∧
      s'.vs = (s.robot.joints.map fun j =>
        (j.name, vv j.name + dt * solver s.t s.qs s.vs tq j.name)) ∧
      s'.qs = (s.robot.joints.map fun j =>
        (j.name, qv j.name + dt * vv j.name +
          (1 : ℚ)/2 * solver s.t s.qs s.vs tq j.name * dt ^ 2)) ∧
      s'.t = s.t + 1 := by
  have ha : ∀ j ∈ (forwardDynamics solver s tq).robot.joints,
      jvAt (forwardDynamics solver s tq).accels j.name =
        some (solver s.t s.qs s.vs tq j.name) := by
    intro j hj
    exact lookup_name_map (solver s.t s.qs s.vs tq) s.robot.joints j hj
  have hstep := integration_spec (forwardDynamics solver s tq) dt qv vv
    (fun n => solver s.t s.qs s.vs tq n) hq hv ha
  refine ⟨{ forwardDynamics solver s tq with
      t := s.t + 1,
      vs := s.robot.joints.map fun j =>
        (j.name, vv j.name + dt * solver s.t s.qs s.vs tq j.name),
      qs := s.robot.joints.map fun j =>
        (j.name, qv j.name + dt * vv j.name +
          (1 : ℚ)/2 * solver s.t s.qs s.vs tq j.name * dt ^ 2) },
    ?_, rfl, rfl, rfl⟩
  have hun : simStep solver s tq dt =
      (integration (forwardDynamics solver s tq) dt).bind
        (fun s2 => some { s2 with t := s2.t + 1 }) := rfl
  rw [hun, hstep]
  rfl

/-- Concrete instantiation for C4: a one-joint robot with `q = 2`, `v = 3`,
solved acceleration `5`, `dt = 1`. -/
def c4Robot : UniversalRobot := ⟨[], [⟨0, "j", 0, 1⟩], "base"⟩

/-- Concrete simulator state for the C4 witness. -/
def c4State : SimState :=
  { robot := c4Robot, initialAngles := [("j", 0)], initialVels := [("j", 0)],
    gravity := none, planarAxis := none, t := 0,
    qs := [("j", 2)], vs := [("j", 3)], accels := [], results := [] }

/-- Constant abstract solver for the C4 witness. -/
def c4Solver : Solver := fun _ _ _ _ _ => 5

/-- Witness for C4 at the concrete state: the step succeeds and produces
`v = 3 + 1*5` and `q = 2 + 1*3 + ½*5*1²`. -/
theorem C4_witness :
    ∃ s', simStep c4Solver c4State [] 1 = some s' ∧
      s'.vs = (c4State.robot.joints.map fun j =>
        (j.name, (fun _ => (3 : ℚ)) j.name +
          1 * c4Solver c4State.t c4State.qs c4State.vs [] j.name)) ∧
      s'.qs = (c4State.robot.joints.map fun j =>
        (j.name, (fun _ => (2 : ℚ)) j.name + 1 * (fun _ => (3 : ℚ)) j.name +
          (1 : ℚ)/2 * c4Solver c4State.t c4State.qs c4State.vs [] j.name * 1 ^ 2)) ∧
      s'.t = c4State.t + 1 :=
  C4_step_semi_implicit_euler c4Solver c4State [] 1 (fun _ => 2) (fun _ => 3)
    (by decide) (by decide)

/-- The Euler branch of the `collocationFactors` joint loop, evaluated. -/
theorem collocationFactorsJoints_euler (t : Int) (dt : ℚ) :
    ∀ js : List RobotJoint,
      collocationFactorsJoints t dt .Euler js =
        .ok (js.flatMap fun j =>
          [.exprFactor (eulerQExpr j.id t dt), .exprFactor (eulerVExpr j.id t dt)]) := by
  intro js
  induction js with
  | nil => rfl
  | cons j rest ih =>
    simp only [collocationFactorsJoints, ih, List.flatMap_cons]
    rfl

/-- The Trapezoidal branch of the `collocationFactors` joint loop, evaluated. -/
theorem collocationFactorsJoints_trap (t : Int) (dt : ℚ) :
    ∀ js : List RobotJoint,
      collocationFactorsJoints t dt .Trapezoidal js =
        .ok (js.flatMap fun j =>
          [.exprFactor (trapQExpr j.id t dt), .exprFactor (trapVExpr j.id t dt)]) := by
  intro js
  induction js with
  | nil => rfl
  | cons j rest ih =>
    simp only [collocationFactorsJoints, ih, List.flatMap_cons]
    rfl

/-- An unimplemented scheme throws as soon as the joint loop runs once. -/
theorem collocationFactorsJoints_error (t : Int) (dt : ℚ)
    (sch : CollocationScheme) (h1 : sch ≠ .Euler) (h2 : sch ≠ .Trapezoidal)
    (j : RobotJoint) (js : List RobotJoint) :
    collocationFactorsJoints t dt sch (j :: js) =
      .error "runge-kutta and hermite-simpson not implemented yet" := by
  cases sch with
  | Euler => exact absurd rfl h1
  | Trapezoidal => exact absurd rfl h2
  | RungeKutta => rfl
  | HermiteSimpson => rfl

/-- C5: For every joint and timestep, `collocationFactors` with the Euler
scheme adds exactly two expression factors per joint, with residuals
`q0 + dt*v0 - q1` and `v0 + dt*a0 - v1` (each zero exactly when the
forward-difference relation holds); with the Trapezoidal scheme it adds
exactly two factors per joint with residuals `q0 + (dt/2)*(v0+v1) - q1` and
`v0 + (dt/2)*(a0+a1) - v1`; and for any other scheme (with at least one joint
to iterate over) it raises the fatal unimplemented-feature error at
graph-construction time. -/
theorem C5_collocation_schemes (robot : UniversalRobot) (t : Int) (dt : ℚ) :
    (collocationFactors robot t dt .Euler =
      .ok (robot.joints.flatMap fun j =>
        [.exprFactor (eulerQExpr j.id t dt), .exprFactor (eulerVExpr j.id t dt)])) ∧
    (collocationFactors robot t dt .Trapezoidal =
      .ok (robot.joints.flatMap fun j =>
        [.exprFactor (trapQExpr j.id t dt), .exprFactor (trapVExpr j.id t dt)])) ∧
    (∀ (j : Int) (asg : DynKey → ℚ),
      (eulerQExpr j t dt).eval asg =
        asg (.jointAngle j t) + dt * asg (.jointVel j t) -
          asg (.jointAngle j (t + 1)) ∧
      ((eulerQExpr j t dt).eval asg = 0 ↔
        asg (.jointAngle j (t + 1)) =
          asg (.jointAngle j t) + dt * asg (.jointVel j t)) ∧
      (eulerVExpr j t dt).eval asg =
        asg (.jointVel j t) + dt * asg (.jointAccel j t) -
          asg (.jointVel j (t + 1)) ∧
      ((eulerVExpr j t dt).eval asg = 0 ↔
        asg (.jointVel j (t + 1)) =
          asg (.jointVel j t) + dt * asg (.jointAccel j t)) ∧
      (trapQExpr j t dt).eval asg =
        asg (.jointAngle j t) +
          dt/2 * (asg (.jointVel j t) + asg (.jointVel j (t + 1))) -
          asg (.jointAngle j (t + 1)) ∧
      ((trapQExpr j t dt).eval asg = 0 ↔
        asg (.jointAngle j (t + 1)) =
          asg (.jointAngle j t) +
            dt/2 * (asg (.jointVel j t) + asg (.jointVel j (t + 1)))) ∧
      (trapVExpr j t dt).eval asg =
        asg (.jointVel j t) +
          dt/2 * (asg (.jointAccel j t) + asg (.jointAccel j (t + 1))) -
          asg (.jointVel j (t + 1)) ∧
      ((trapVExpr j t dt).eval asg = 0 ↔
        asg (.jointVel j (t + 1)) =
          asg (.jointVel j t) +
            dt/2 * (asg (.jointAccel j t) + asg (.jointAccel j (t + 1))))) ∧
    (∀ sch, sch ≠ CollocationScheme.Euler → sch ≠ CollocationScheme.Trapezoidal →
      robot.joints ≠ [] →
      collocationFactors robot t dt sch =
        .error "runge-kutta and hermite-simpson not implemented yet") := by
  refine ⟨collocationFactorsJoints_euler t dt robot.joints,
          collocationFactorsJoints_trap t dt robot.joints, ?_, ?_⟩
  · intro j asg
    refine ⟨rfl, ?_, rfl, ?_, ?_, ?_, ?_, ?_⟩
    · show asg (.jointAngle j t) + dt * asg (.jointVel j t) -
        asg (.jointAngle j (t + 1)) = 0 ↔ _
      rw [sub_eq_zero, eq_comm]
    · show asg (.jointVel j t) + dt * asg (.jointAccel j t) -
        asg (.jointVel j (t + 1)) = 0 ↔ _
      rw [sub_eq_zero, eq_comm]
    · show asg (.jointAngle j t) + 1/2 * dt * asg (.jointVel j t) +
        1/2 * dt * asg (.jointVel j (t + 1)) - asg (.jointAngle j (t + 1)) = _
      ring
    · show asg (.jointAngle j t) + 1/2 * dt * asg (.jointVel j t) +
        1/2 * dt * asg (.jointVel j (t + 1)) - asg (.jointAngle j (t + 1)) = 0 ↔ _
      rw [sub_eq_zero, eq_comm]
      constructor <;> intro h <;> rw [h] <;> ring
    · show asg (.jointVel j t) + 1/2 * dt * asg (.jointAccel j t) +
        1/2 * dt * asg (.jointAccel j (t + 1)) - asg (.jointVel j (t + 1)) = _
      ring
    · show asg (.jointVel j t) + 1/2 * dt * asg (.jointAccel j t) +
        1/2 * dt * asg (.jointAccel j (t + 1)) - asg (.jointVel j (t + 1)) = 0 ↔ _
      rw [sub_eq_zero, eq_comm]
      constructor <;> intro h <;> rw [h] <;> ring
  · intro sch h1 h2 hne
    match hj : robot.joints with
    | [] => exact absurd hj hne
    | j :: js =>
      unfold collocationFactors
      rw [hj]
      exact collocationFactorsJoints_error t dt sch h1 h2 j js

/-- Concrete one-joint robot for the C5 witness. -/
def c5Robot : UniversalRobot := ⟨[], [⟨7, "elbow", 0, 1⟩], "base"⟩

/-- Witness for C5: on a one-joint robot the RungeKutta scheme raises the
unimplemented-feature error. -/
theorem C5_witness :
    collocationFactors c5Robot 0 1 .RungeKutta =
      .error "runge-kutta and hermite-simpson not implemented yet" :=
  (C5_collocation_schemes c5Robot 0 1).2.2.2 .RungeKutta
    (by decide) (by decide) (by decide)

/-- Every joint contributes its planar row (with the shared jacobian payload)
to the joint loop of the linear graph when a planar axis is supplied. -/
theorem planarRow_mem_joints (t : Int) (ax : ℚ × ℚ × ℚ) :
    ∀ (js : List RobotJoint) (j : RobotJoint), j ∈ js →
      LinFactor.planarRow (.wrench j.child j.id t) (getPlanarJacobian ax) ∈
        linearDynamicsJoints t (some ax) js := by
  intro js
  induction js with
  | nil => intro j h; cases h
  | cons j' rest ih =>
    intro j hmem
    rcases List.mem_cons.mp hmem with h | h
    · subst h
      simp [linearDynamicsJoints]
    · have hrest := ih j h
      simp only [linearDynamicsJoints, List.mem_append, List.mem_cons]
      tauto

/-- C10: `getPlanarJacobian` produces a (well-defined) matrix only when
the x, y or z component of the supplied axis is exactly 1; for any other
vector — for example `(0, 0, -1)`, a scaled axis, or the zero vector — the
returned matrix is the never-assigned local (modelled `none`), and the
3-dimensional planar wrench row subsequently added to the linear dynamics
graph for every joint carries that indeterminate jacobian; no error branch
exists for an unrecognized axis (the builder is total). -/
theorem C10_planar_jacobian (ax : ℚ × ℚ × ℚ) :
    (getPlanarJacobian ax = none ↔
      ax.1 ≠ 1 ∧ ax.2.1 ≠ 1 ∧ ax.2.2 ≠ 1) ∧
    (∀ (robot : UniversalRobot) (t : Int) (g : Option (ℚ × ℚ × ℚ))
        (j : RobotJoint), j ∈ robot.joints →
      LinFactor.planarRow (.wrench j.child j.id t) (getPlanarJacobian ax) ∈
        linearDynamicsGraph robot t g (some ax)) := by
  constructor
  · unfold getPlanarJacobian
    split_ifs with h1 h2 h3 <;> simp_all
  · intro robot t g j hj
    unfold linearDynamicsGraph
    exact List.mem_append_right _ (planarRow_mem_joints t ax robot.joints j hj)

/-- Concrete robot for the C10 witness. -/
def c10Robot : UniversalRobot := ⟨[⟨0, "base", true, [0]⟩, ⟨1, "arm", false, [0]⟩],
  [⟨0, "j", 0, 1⟩], "base"⟩

/-- Witness for C10 at the unrecognized axis `(0, 0, -1)`: the jacobian is
indeterminate and the planar row added for the robot's joint carries it. -/
theorem C10_witness :
    getPlanarJacobian ((0 : ℚ), (0 : ℚ), (-1 : ℚ)) = none ∧
    LinFactor.planarRow (.wrench 1 0 0)
        (getPlanarJacobian ((0 : ℚ), (0 : ℚ), (-1 : ℚ))) ∈
      linearDynamicsGraph c10Robot 0 none (some ((0 : ℚ), (0 : ℚ), (-1 : ℚ))) :=
  ⟨(C10_planar_jacobian ((0 : ℚ), (0 : ℚ), (-1 : ℚ))).1.mpr
     (by norm_num),
   (C10_planar_jacobian ((0 : ℚ), (0 : ℚ), (-1 : ℚ))).2 c10Robot 0 none
     ⟨0, "j", 0, 1⟩ (by decide)⟩

/-- URDF description whose joint references a child link name that is not
among the links. -/
def c2ChildMissing : Urdf.UrdfModel := ⟨["l1"], [⟨"j1", "l1", "l2"⟩]⟩

/-- URDF description whose joint references a parent link name that is not
among the links. -/
def c2ParentMissing : Urdf.UrdfModel := ⟨["l1"], [⟨"j1", "l0", "l1"⟩]⟩

/-- A well-formed URDF description (both names resolve). -/
def c2WellFormed : Urdf.UrdfModel := ⟨["l1", "l2"], [⟨"j1", "l1", "l2"⟩]⟩

/-- C2: Evaluating robot-model construction on descriptions with a
dangling joint reference: no referential-integrity check runs — instead,
`std::map::operator[]` silently yields a null link pointer which the joint
loop then dereferences (undefined behaviour/crash), for a missing child name
and for a missing parent name alike; on a well-formed description the
construction succeeds with both joint references resolved.  Nowhere is a
not-found construction error raised. -/
theorem C2_dangling_reference_is_null_deref :
    Urdf.extract_structure_from_urdf c2ChildMissing =
      .error .nullDereference ∧
    Urdf.extract_structure_from_urdf c2ParentMissing =
      .error .nullDereference ∧
    Urdf.extract_structure_from_urdf c2WellFormed =
      .ok ([some "l1", some "l2"],
           [⟨"j1", some "l1", some "l2"⟩]) :=
  ⟨rfl, rfl, rfl⟩

/-- A constructed robot with one link `l1` and one joint `j1`, for C3. -/
def c3Robot : Urdf.URobot := ⟨[("l1", some "l1")], [("j1", some "j1")]⟩

/-- C3 counterexample: `getLinkByName`/`getJointByName` on a name that
names no link/joint return a null pointer to the caller — there is no
not-found failure — refuting the claim at the concrete robot `{l1; j1}` and
name `"ghost"`. -/
theorem C3_counterexample :
    (Urdf.getLinkByName c3Robot "ghost").1 = none ∧
    (Urdf.getJointByName c3Robot "ghost").1 = none :=
  ⟨rfl, rfl⟩

/-- C3 (amended): For every string that names no link (resp. joint),
`getLinkByName` (resp. `getJointByName`) silently returns a null pointer and
inserts a null entry under that name into the map (the method mutates the
robot); for a known name it returns the stored pointer unchanged.  No
not-found condition is ever raised. -/
theorem C3_lookup_returns_null (r : Urdf.URobot) (name : String) :
    (List.lookup name r.nameToLinkBody = none →
      (Urdf.getLinkByName r name).1 = none ∧
      (Urdf.getLinkByName r name).2.nameToLinkBody =
        r.nameToLinkBody ++ [(name, none)]) ∧
    (∀ p, List.lookup name r.nameToLinkBody = some p →
      (Urdf.getLinkByName r name).1 = p ∧
      (Urdf.getLinkByName r name).2 = r) ∧
    (List.lookup name r.nameToLinkJoint = none →
      (Urdf.getJointByName r name).1 = none ∧
      (Urdf.getJointByName r name).2.nameToLinkJoint =
        r.nameToLinkJoint ++ [(name, none)]) ∧
    (∀ p, List.lookup name r.nameToLinkJoint = some p →
      (Urdf.getJointByName r name).1 = p ∧
      (Urdf.getJointByName r name).2 = r) := by
  refine ⟨?_, ?_, ?_, ?_⟩
  · intro h
    unfold Urdf.getLinkByName Urdf.mapGetPtr
    rw [h]
    exact ⟨rfl, rfl⟩
  · intro p h
    unfold Urdf.getLinkByName Urdf.mapGetPtr
    rw [h]
    exact ⟨rfl, rfl⟩
  · intro h
    unfold Urdf.getJointByName Urdf.mapGetPtr
    rw [h]
    exact ⟨rfl, rfl⟩
  · intro p h
    unfold Urdf.getJointByName Urdf.mapGetPtr
    rw [h]
    exact ⟨rfl, rfl⟩

/-- Witness for the amended C3 at the concrete robot and the unknown name
`"nope"`. -/
theorem C3_witness :
    (Urdf.getLinkByName c3Robot "nope").1 = none ∧
    (Urdf.getLinkByName c3Robot "nope").2.nameToLinkBody =
      c3Robot.nameToLinkBody ++ [("nope", none)] :=
  (C3_lookup_returns_null c3Robot "nope").1 (by decide)

/-- Is this factor a wrench-balance factor (`WrenchFactor0..4`) for the link
with id `i` at timestep `t`? -/
def isWrenchBalanceFor (i t : Int) : Factor → Bool
  | .wrench0 _ ka _ => ka == .twistAccel i t
  | .wrench1 _ ka _ _ => ka == .twistAccel i t
  | .wrench2 _ ka _ _ _ => ka == .twistAccel i t
  | .wrench3 _ ka _ _ _ _ => ka == .twistAccel i t
  | .wrench4 _ ka _ _ _ _ _ => ka == .twistAccel i t
  | _ => false

/-- The arity (number of referenced wrench variables) of a wrench-balance
factor. -/
def wrenchArity : Factor → Option Nat
  | .wrench0 _ _ _ => some 0
  | .wrench1 _ _ _ _ => some 1
  | .wrench2 _ _ _ _ _ => some 2
  | .wrench3 _ _ _ _ _ _ => some 3
  | .wrench4 _ _ _ _ _ _ _ => some 4
  | _ => none

/-- Is this linear row a wrench-balance row for the link with id `i` at
timestep `t`? -/
def isLinWrenchBalanceFor (i t : Int) : LinFactor → Bool
  | .wrenchBalance0 ka => ka == .twistAccel i t
  | .wrenchBalance1 ka _ => ka == .twistAccel i t
  | .wrenchBalance2 ka _ _ => ka == .twistAccel i t
  | _ => false

/-- The arity of a linear wrench-balance row. -/
def linWrenchArity : LinFactor → Option Nat
  | .wrenchBalance0 _ => some 0
  | .wrenchBalance1 _ _ => some 1
  | .wrenchBalance2 _ _ _ => some 2
  | _ => none

/-- A successfully built wrench factor for link id `i` answers the
wrench-balance predicate exactly on `i` and reports its joint count as
arity. -/
theorem wrenchFactorOf_ok_char (i t : Int) (js : List Int) (f : Factor)
    (h : wrenchFactorOf i t js = .ok f) (i' : Int) :
    isWrenchBalanceFor i' t f = decide (i = i') ∧
      wrenchArity f = some js.length := by
  rcases js with _ | ⟨a, _ | ⟨b, _ | ⟨c, _ | ⟨d, _ | ⟨e, rest⟩⟩⟩⟩⟩ <;>
    simp only [wrenchFactorOf] at h <;>
    first
    | (cases h
       constructor
       · by_cases hii : i = i' <;>
           simp [isWrenchBalanceFor, hii]
       · rfl)
    | cases h

/-- Reduction of a successful `Except` bind. -/
theorem exceptBind_ok {ε α β : Type} (a : α) (f : α → Except ε β) :
    (Except.ok a >>= f) = f a := rfl

/-- Reduction of a failing `Except` bind. -/
theorem exceptBind_error {ε α β : Type} (e : ε) (f : α → Except ε β) :
    ((Except.error e : Except ε α) >>= f) = Except.error e := rfl

/-- The `wrenchFactorOf` succeeds exactly on joint counts up to four. -/
theorem wrenchFactorOf_ok_iff (i t : Int) (js : List Int) :
    (∃ f, wrenchFactorOf i t js = .ok f) ↔ js.length ≤ 4 := by
  rcases js with _ | ⟨a, _ | ⟨b, _ | ⟨c, _ | ⟨d, _ | ⟨e, rest⟩⟩⟩⟩⟩ <;>
    simp [wrenchFactorOf]

/-- The `wrenchFactorOf` raises the explicit unsupported-degree error for five or
more joints. -/
theorem wrenchFactorOf_error (i t : Int) (js : List Int)
    (h : 5 ≤ js.length) :
    wrenchFactorOf i t js = .error "Wrench factor not defined" := by
  rcases js with _ | ⟨a, _ | ⟨b, _ | ⟨c, _ | ⟨d, _ | ⟨e, rest⟩⟩⟩⟩⟩ <;>
    first
    | rfl
    | simp at h

/-- The link loop of `dynamicsFactors` succeeds when every non-fixed link has
at most four incident joints. -/
theorem dynamicsFactorsLinks_ok (t : Int) :
    ∀ ls : List RobotLink,
      (∀ l ∈ ls, l.isFixed = false → l.joints.length ≤ 4) →
      ∃ G, dynamicsFactorsLinks t ls = .ok G := by
  intro ls
  induction ls with
  | nil => intro _; exact ⟨[], rfl⟩
  | cons l rest ih =>
    intro h
    obtain ⟨G', hG'⟩ := ih fun x hx => h x (List.mem_cons_of_mem _ hx)
    by_cases hfix : l.isFixed
    · exact ⟨G', by simp [dynamicsFactorsLinks, hfix, hG']⟩
    · have hlen : l.joints.length ≤ 4 :=
        h l (List.mem_cons_self l rest) (by simpa using hfix)
      obtain ⟨f, hf⟩ := (wrenchFactorOf_ok_iff l.id t l.joints).mpr hlen
      refine ⟨f :: G', ?_⟩
      simp [dynamicsFactorsLinks, hfix, linkWrenchFactor, hf, hG',
        exceptBind_ok]

/-- The link loop of `dynamicsFactors` raises the explicit error whenever some
non-fixed link has five or more incident joints. -/
theorem dynamicsFactorsLinks_error (t : Int) :
    ∀ ls : List RobotLink,
      (∃ l ∈ ls, l.isFixed = false ∧ 5 ≤ l.joints.length) →
      dynamicsFactorsLinks t ls = .error "Wrench factor not defined" := by
  intro ls
  induction ls with
  | nil => rintro ⟨l, hl, _⟩; cases hl
  | cons l rest ih =>
    rintro ⟨x, hx, hxf, hxlen⟩
    rcases List.mem_cons.mp hx with h | h
    · subst h
      have hfix : ¬x.isFixed := by simp [hxf]
      have herr := wrenchFactorOf_error x.id t x.joints hxlen
      simp [dynamicsFactorsLinks, hfix, linkWrenchFactor, herr,
        exceptBind_error]
    · by_cases hfix : l.isFixed
      · simpa [dynamicsFactorsLinks, hfix] using ih ⟨x, h, hxf, hxlen⟩
      · have hrest := ih ⟨x, h, hxf, hxlen⟩
        cases hf : linkWrenchFactor l t with
        | error e =>
          have he : e = "Wrench factor not defined" := by
            unfold linkWrenchFactor at hf
            rcases hj : l.joints with _ | ⟨a, _ | ⟨b, _ | ⟨c, _ | ⟨d, _ | ⟨q, r⟩⟩⟩⟩⟩ <;>
              rw [hj] at hf <;>
              simp only [wrenchFactorOf] at hf <;>
              first
              | (cases hf; rfl)
              | cases hf
          subst he
          simp [dynamicsFactorsLinks, hfix, hf, exceptBind_error]
        | ok f =>
          simp [dynamicsFactorsLinks, hfix, hf, hrest, exceptBind_ok,
            exceptBind_error]

/-- Counting wrench-balance factors for link id `i` in the link loop of
`dynamicsFactors`: one per non-fixed link whose id equals `i`. -/
theorem dynamicsFactorsLinks_countP (t i : Int) :
    ∀ (ls : List RobotLink) (G : List Factor),
      dynamicsFactorsLinks t ls = .ok G →
      G.countP (isWrenchBalanceFor i t) =
        ls.countP (fun l => !l.isFixed && decide (l.id = i)) := by
  intro ls
  induction ls with
  | nil =>
    intro G h
    cases h
    rfl
  | cons l rest ih =>
    intro G h
    by_cases hfix : l.isFixed
    · rw [List.countP_cons]
      simp only [dynamicsFactorsLinks, hfix, if_true] at h
      simp [ih G h, hfix]
    · simp only [dynamicsFactorsLinks, hfix, if_false] at h
      cases hf : linkWrenchFactor l t with
      | error e => rw [hf] at h; cases h
      | ok f =>
        rw [hf] at h
        cases hr : dynamicsFactorsLinks t rest with
        | error e => rw [hr] at h; cases h
        | ok G' =>
          rw [hr] at h
          cases h
          have hchar := wrenchFactorOf_ok_char l.id t l.joints f hf i
          rw [List.countP_cons, List.countP_cons, ih G' hr, hchar.1]
          by_cases hii : l.id = i <;> simp [hii, hfix]

/-- Every wrench-balance factor for id `i` in the link loop stems from a
non-fixed listed link with that id and matching arity. -/
theorem dynamicsFactorsLinks_arity (t i : Int) :
    ∀ (ls : List RobotLink) (G : List Factor),
      dynamicsFactorsLinks t ls = .ok G →
      ∀ f ∈ G, isWrenchBalanceFor i t f = true →
        ∃ l ∈ ls, l.isFixed = false ∧ l.id = i ∧
          wrenchArity f = some l.joints.length := by
  intro ls
  induction ls with
  | nil =>
    intro G h f hf _
    cases h
    cases hf
  | cons l rest ih =>
    intro G h f hfmem hfwb
    by_cases hfix : l.isFixed
    · simp only [dynamicsFactorsLinks, hfix, if_true] at h
      obtain ⟨l', hl', hrest⟩ := ih G h f hfmem hfwb
      exact ⟨l', List.mem_cons_of_mem _ hl', hrest⟩
    · simp only [dynamicsFactorsLinks, hfix, if_false] at h
      cases hw : linkWrenchFactor l t with
      | error e => rw [hw] at h; cases h
      | ok f0 =>
        rw [hw] at h
        cases hr : dynamicsFactorsLinks t rest with
        | error e => rw [hr] at h; cases h
        | ok G' =>
          rw [hr] at h
          cases h
          rcases List.mem_cons.mp hfmem with hcase | hcase
          · subst hcase
            have hchar := wrenchFactorOf_ok_char l.id t l.joints f hw i
            have : l.id = i := by
              rcases hchar with ⟨hpred, _⟩
              rw [hfwb] at hpred
              exact of_decide_eq_true hpred.symm
            exact ⟨l, List.mem_cons_self l rest,
              by simpa using hfix, this, hchar.2⟩
          · obtain ⟨l', hl', hrest⟩ := ih G' hr f hcase hfwb
            exact ⟨l', List.mem_cons_of_mem _ hl', hrest⟩

/-- The joint loop of `dynamicsFactors` contributes no wrench-balance
factor. -/
theorem dynamicsFactorsJoints_noWB (robot : UniversalRobot) (t : Int)
    (p : Option (ℚ × ℚ × ℚ)) (i t' : Int) :
    ∀ f ∈ dynamicsFactorsJoints robot t p,
      isWrenchBalanceFor i t' f = false := by
  intro f hf
  simp only [dynamicsFactorsJoints, List.mem_flatMap] at hf
  obtain ⟨j, _, hjf⟩ := hf
  cases p with
  | none =>
    simp only [List.mem_append, List.mem_cons, List.not_mem_nil,
      or_false] at hjf
    rcases hjf with h | h <;> subst h <;> rfl
  | some ax =>
    simp only [List.mem_append, List.mem_cons, List.not_mem_nil,
      or_false] at hjf
    rcases hjf with (h | h) | h <;> subst h <;> rfl

/-- The `countP` of a predicate that picks out a unique element of a duplicate-free
list is one. -/
theorem countP_eq_one_unique {α : Type} (p : α → Bool) :
    ∀ (ls : List α) (l : α), ls.Nodup → l ∈ ls → p l = true →
      (∀ x ∈ ls, p x = true → x = l) → ls.countP p = 1 := by
  intro ls
  induction ls with
  | nil => intro l _ hl; cases hl
  | cons a rest ih =>
    intro l hnd hl hp huniq
    rcases List.mem_cons.mp hl with hcase | hcase
    · subst hcase
      have hrest0 : rest.countP p = 0 := by
        rw [List.countP_eq_zero]
        intro x hx hpx
        have : x = l := huniq x (List.mem_cons_of_mem _ hx) hpx
        subst this
        exact (List.nodup_cons.mp hnd).1 hx
      simp [List.countP_cons, hp, hrest0]
    · have hpa : p a = false := by
        by_contra hpa
        have : a = l := huniq a (List.mem_cons_self a rest)
          (by revert hpa; cases p a <;> simp)
        subst this
        exact (List.nodup_cons.mp hnd).1 hcase
      have hrec := ih l (List.nodup_cons.mp hnd).2 hcase hp
        (fun x hx hpx => huniq x (List.mem_cons_of_mem _ hx) hpx)
      simp [List.countP_cons, hpa, hrec]

/-- In a list of links with duplicate-free ids, two members with equal ids are
equal. -/
theorem link_id_inj (ls : List RobotLink)
    (hnd : (ls.map RobotLink.id).Nodup) :
    ∀ l ∈ ls, ∀ l' ∈ ls, l.id = l'.id → l = l' := by
  intro l hl l' hl' hid
  exact List.inj_on_of_nodup_map hnd hl hl' hid

/-- Behaviour of the linear wrench-balance row family: one row with matching
arity for joint counts up to two, nothing at all for three or more. -/
theorem linWrenchRowsOf_char (i t : Int) (js : List Int) :
    (js.length ≤ 2 →
      ∃ r, linWrenchRowsOf i t js = [r] ∧
        (∀ i', isLinWrenchBalanceFor i' t r = decide (i = i')) ∧
        linWrenchArity r = some js.length) ∧
    (3 ≤ js.length → linWrenchRowsOf i t js = []) := by
  rcases js with _ | ⟨a, _ | ⟨b, _ | ⟨c, rest⟩⟩⟩
  · refine ⟨fun _ => ⟨_, rfl, fun i' => ?_, rfl⟩, fun h => by simp at h⟩
    by_cases hii : i = i' <;> simp [isLinWrenchBalanceFor, hii]
  · refine ⟨fun _ => ⟨_, rfl, fun i' => ?_, rfl⟩, fun h => by simp at h⟩
    by_cases hii : i = i' <;> simp [isLinWrenchBalanceFor, hii]
  · refine ⟨fun _ => ⟨_, rfl, fun i' => ?_, rfl⟩, fun h => by simp at h⟩
    by_cases hii : i = i' <;> simp [isLinWrenchBalanceFor, hii]
  · refine ⟨fun h => ?_, fun _ => rfl⟩
    simp at h

/-- Counting wrench-balance rows for link id `i` in the link loop of the
linear graph: one per non-fixed link with that id and at most two incident
joints — links of higher degree contribute nothing. -/
theorem linearDynamicsLinks_countP (t i : Int) :
    ∀ ls : List RobotLink,
      (linearDynamicsLinks t ls).countP (isLinWrenchBalanceFor i t) =
        ls.countP (fun l => !l.isFixed && decide (l.id = i) &&
          decide (l.joints.length ≤ 2)) := by
  intro ls
  induction ls with
  | nil => rfl
  | cons l rest ih =>
    have hcons : linearDynamicsLinks t (l :: rest) =
        linLinkRows l t ++ linearDynamicsLinks t rest := by
      simp [linearDynamicsLinks]
    have hrow : (linLinkRows l t).countP (isLinWrenchBalanceFor i t) =
        if (!l.isFixed && decide (l.id = i) &&
          decide (l.joints.length ≤ 2)) = true then 1 else 0 := by
      by_cases hfix : l.isFixed
      · simp [linLinkRows, hfix, isLinWrenchBalanceFor, List.countP_cons]
      · by_cases hlen : l.joints.length ≤ 2
        · obtain ⟨r, hr, hpred, _⟩ :=
            (linWrenchRowsOf_char l.id t l.joints).1 hlen
          rw [linLinkRows, if_neg hfix, hr]
          by_cases hii : l.id = i <;>
            simp [List.countP_cons, hpred i, hii, hfix, hlen]
        · have hnil := (linWrenchRowsOf_char l.id t l.joints).2 (by omega)
          rw [linLinkRows, if_neg hfix, hnil]
          simp [hfix, hlen]
    rw [hcons, List.countP_append, ih, List.countP_cons, hrow]
    omega

/-- Every wrench-balance row for id `i` in the link loop of the linear graph
stems from a non-fixed listed link of that id with at most two joints and
matching arity. -/
theorem linearDynamicsLinks_arity (t i : Int) :
    ∀ ls : List RobotLink, ∀ f ∈ linearDynamicsLinks t ls,
      isLinWrenchBalanceFor i t f = true →
      ∃ l ∈ ls, l.isFixed = false ∧ l.id = i ∧ l.joints.length ≤ 2 ∧
        linWrenchArity f = some l.joints.length := by
  intro ls
  induction ls with
  | nil => intro f hf; cases hf
  | cons l rest ih =>
    intro f hf hwb
    have hcons : linearDynamicsLinks t (l :: rest) =
        linLinkRows l t ++ linearDynamicsLinks t rest := by
      simp [linearDynamicsLinks]
    rw [hcons] at hf
    rcases List.mem_append.mp hf with hcase | hcase
    · by_cases hfix : l.isFixed
      · rw [linLinkRows, if_pos hfix] at hcase
        simp at hcase
        subst hcase
        cases hwb
      · by_cases hlen : l.joints.length ≤ 2
        · obtain ⟨r, hr, hpred, harity⟩ :=
            (linWrenchRowsOf_char l.id t l.joints).1 hlen
          rw [linLinkRows, if_neg hfix, hr] at hcase
          simp at hcase
          subst hcase
          have hid : l.id = i := by
            have := hpred i
            rw [hwb] at this
            exact of_decide_eq_true this.symm
          exact ⟨l, List.mem_cons_self l rest, by simpa using hfix,
            hid, hlen, harity⟩
        · have hnil := (linWrenchRowsOf_char l.id t l.joints).2 (by omega)
          rw [linLinkRows, if_neg hfix, hnil] at hcase
          cases hcase
    · obtain ⟨l', hl', hrest⟩ := ih f hcase hwb
      exact ⟨l', List.mem_cons_of_mem _ hl', hrest⟩

/-- The joint loop of the linear graph contributes no wrench-balance row. -/
theorem linearDynamicsJoints_noWB (t : Int) (p : Option (ℚ × ℚ × ℚ))
    (i t' : Int) :
    ∀ js : List RobotJoint, ∀ f ∈ linearDynamicsJoints t p js,
      isLinWrenchBalanceFor i t' f = false := by
  intro js
  induction js with
  | nil => intro f hf; cases hf
  | cons j rest ih =>
    intro f hf
    cases p with
    | none =>
      simp only [linearDynamicsJoints, List.mem_append, List.mem_cons,
        List.not_mem_nil, or_false] at hf
      rcases hf with (h | h | h) | h
      · subst h; rfl
      · subst h; rfl
      · subst h; rfl
      · exact ih f h
    | some ax =>
      simp only [linearDynamicsJoints, List.mem_append, List.mem_cons,
        List.not_mem_nil, or_false] at hf
      rcases hf with ((h | h | h) | h) | h
      · subst h; rfl
      · subst h; rfl
      · subst h; rfl
      · subst h; rfl
      · exact ih f h

/-- Evaluating `dynamicsFactors` when the link loop succeeds. -/
theorem dynamicsFactors_eq_ok (robot : UniversalRobot) (t : Int)
    (g p : Option (ℚ × ℚ × ℚ)) (L0 : List Factor)
    (h : dynamicsFactorsLinks t robot.links = .ok L0) :
    dynamicsFactors robot t g p = .ok (L0 ++ dynamicsFactorsJoints robot t p) := by
  unfold dynamicsFactors
  rw [h]
  rfl

/-- Evaluating `dynamicsFactors` when the link loop throws. -/
theorem dynamicsFactors_eq_err (robot : UniversalRobot) (t : Int)
    (g p : Option (ℚ × ℚ × ℚ)) (e : String)
    (h : dynamicsFactorsLinks t robot.links = .error e) :
    dynamicsFactors robot t g p = .error e := by
  unfold dynamicsFactors
  rw [h]
  rfl

/-- C1 (amended): The nonlinear per-timestep builder `dynamicsFactors`
adds exactly one wrench-balance factor per non-fixed link, with arity equal to
the link's incident-joint count, for counts 0..4, and raises the explicit
runtime error "Wrench factor not defined" whenever some non-fixed link has a
higher count.  The linear per-timestep graph used by forward dynamics,
however, emits a wrench-balance row only for counts 0..2 and silently emits
*no* wrench constraint for a non-fixed link with three or more incident
joints (it never raises an error). -/
theorem C1_wrench_arity_dichotomy (robot : UniversalRobot) (t : Int)
    (g p : Option (ℚ × ℚ × ℚ)) :
    ((∀ l ∈ robot.links, l.isFixed = false → l.joints.length ≤ 4) →
      ∃ G, dynamicsFactors robot t g p = .ok G ∧
        ((robot.links.map RobotLink.id).Nodup →
          ∀ l ∈ robot.links, l.isFixed = false →
            G.countP (isWrenchBalanceFor l.id t) = 1 ∧
            ∀ f ∈ G, isWrenchBalanceFor l.id t f = true →
              wrenchArity f = some l.joints.length)) ∧
    ((∃ l ∈ robot.links, l.isFixed = false ∧ 5 ≤ l.joints.length) →
      dynamicsFactors robot t g p = .error "Wrench factor not defined") ∧
    ((robot.links.map RobotLink.id).Nodup →
      ∀ l ∈ robot.links, l.isFixed = false →
        (l.joints.length ≤ 2 →
          (linearDynamicsGraph robot t g p).countP
            (isLinWrenchBalanceFor l.id t) = 1 ∧
          ∀ f ∈ linearDynamicsGraph robot t g p,
            isLinWrenchBalanceFor l.id t f = true →
              linWrenchArity f = some l.joints.length) ∧
        (3 ≤ l.joints.length →
          (linearDynamicsGraph robot t g p).countP
            (isLinWrenchBalanceFor l.id t) = 0)) := by
  refine ⟨?_, ?_, ?_⟩
  · intro hle
    obtain ⟨L0, hL0⟩ := dynamicsFactorsLinks_ok t robot.links hle
    refine ⟨L0 ++ dynamicsFactorsJoints robot t p,
      dynamicsFactors_eq_ok robot t g p L0 hL0, ?_⟩
    intro hnd l hl hnf
    have hjz : (dynamicsFactorsJoints robot t p).countP
        (isWrenchBalanceFor l.id t) = 0 := by
      rw [List.countP_eq_zero]
      intro f hf
      simp [dynamicsFactorsJoints_noWB robot t p l.id t f hf]
    constructor
    · rw [List.countP_append, hjz,
        dynamicsFactorsLinks_countP t l.id robot.links L0 hL0]
      have := countP_eq_one_unique
        (fun l' => !l'.isFixed && decide (l'.id = l.id)) robot.links l
        (List.Nodup.of_map _ hnd) hl (by simp [hnf])
        (fun x hx hpx => by
          have hxid : x.id = l.id := by
            simp only [Bool.and_eq_true, decide_eq_true_eq] at hpx
            exact hpx.2
          exact link_id_inj robot.links hnd x hx l hl hxid)
      simpa using this
    · intro f hfmem hfwb
      rcases List.mem_append.mp hfmem with hcase | hcase
      · obtain ⟨l', hl', hl'nf, hl'id, harity⟩ :=
          dynamicsFactorsLinks_arity t l.id robot.links L0 hL0 f hcase hfwb
        have : l' = l := link_id_inj robot.links hnd l' hl' l hl hl'id
        subst this
        exact harity
      · have := dynamicsFactorsJoints_noWB robot t p l.id t f hcase
        rw [hfwb] at this
        cases this
  · rintro ⟨l, hl, hnf, hlen⟩
    exact dynamicsFactors_eq_err robot t g p _
      (dynamicsFactorsLinks_error t robot.links ⟨l, hl, hnf, hlen⟩)
  · intro hnd l hl hnf
    have hjz : ∀ f ∈ linearDynamicsJoints t p robot.joints,
        isLinWrenchBalanceFor l.id t f = false :=
      linearDynamicsJoints_noWB t p l.id t robot.joints
    have hjz0 : (linearDynamicsJoints t p robot.joints).countP
        (isLinWrenchBalanceFor l.id t) = 0 := by
      rw [List.countP_eq_zero]
      intro f hf
      simp [hjz f hf]
    constructor
    · intro hlen
      constructor
      · unfold linearDynamicsGraph
        rw [List.countP_append, hjz0, linearDynamicsLinks_countP t l.id]
        have := countP_eq_one_unique
          (fun l' => !l'.isFixed && decide (l'.id = l.id) &&
            decide (l'.joints.length ≤ 2)) robot.links l
          (List.Nodup.of_map _ hnd) hl (by simp [hnf, hlen])
          (fun x hx hpx => by
            have hxid : x.id = l.id := by
              simp only [Bool.and_eq_true, decide_eq_true_eq] at hpx
              exact hpx.1.2
            exact link_id_inj robot.links hnd x hx l hl hxid)
        simpa using this
      · intro f hfmem hfwb
        unfold linearDynamicsGraph at hfmem
        rcases List.mem_append.mp hfmem with hcase | hcase
        · obtain ⟨l', hl', hl'nf, hl'id, _, harity⟩ :=
            linearDynamicsLinks_arity t l.id robot.links f hcase hfwb
          have : l' = l := link_id_inj robot.links hnd l' hl' l hl hl'id
          subst this
          exact harity
        · have := hjz f hcase
          rw [hfwb] at this
          cases this
    · intro hlen
      unfold linearDynamicsGraph
      rw [List.countP_append, hjz0, linearDynamicsLinks_countP t l.id]
      have hz : robot.links.countP (fun l' => !l'.isFixed &&
          decide (l'.id = l.id) && decide (l'.joints.length ≤ 2)) = 0 := by
        rw [List.countP_eq_zero]
        intro x hx hpx
        simp only [Bool.and_eq_true, decide_eq_true_eq] at hpx
        have : x = l := link_id_inj robot.links hnd x hx l hl hpx.1.2
        subst this
        omega
      omega

/-- Robot with a non-fixed link (id 1) of incident-joint degree 3: the C1
counterexample configuration. -/
def c1Robot : UniversalRobot :=
  ⟨[⟨0, "base", true, [0, 1, 2]⟩, ⟨1, "body", false, [0, 1, 2]⟩],
   [⟨0, "j0", 0, 1⟩, ⟨1, "j1", 0, 1⟩, ⟨2, "j2", 0, 1⟩], "base"⟩

/-- C1 counterexample: On a robot with a non-fixed link of incident-joint
degree 3, the linear per-timestep graph used by forward dynamics emits *no*
wrench-balance constraint for that link and raises no error — refuting the
claim that every wrench-emitting builder covers degrees 0..4 and never
silently omits a wrench constraint (the nonlinear builder does emit the
arity-3 factor on the same robot). -/
theorem C1_counterexample :
    (⟨1, "body", false, [0, 1, 2]⟩ : RobotLink) ∈ c1Robot.links ∧
    (linearDynamicsGraph c1Robot 0 none none).countP
      (isLinWrenchBalanceFor 1 0) = 0 ∧
    (dynamicsFactors c1Robot 0 none none).toOption.isSome = true ∧
    ((dynamicsFactors c1Robot 0 none none).toOption.getD []).countP
      (isWrenchBalanceFor 1 0) = 1 := by
  refine ⟨by decide, by decide, by decide, by decide⟩

/-- Witness instantiation for the amended C1: on the degree-3 robot the
nonlinear builder succeeds and emits exactly one wrench-balance factor of
arity 3 for link 1, while the linear builder emits zero wrench-balance rows
for it. -/
theorem C1_witness :
    ∃ G, dynamicsFactors c1Robot 0 none none = .ok G ∧
      G.countP (isWrenchBalanceFor 1 0) = 1 ∧
      (linearDynamicsGraph c1Robot 0 none none).countP
        (isLinWrenchBalanceFor 1 0) = 0 := by
  obtain ⟨G, hG, hP⟩ :=
    (C1_wrench_arity_dichotomy c1Robot 0 none none).1 (by decide)
  have hcnt := (hP (by decide) ⟨1, "body", false, [0, 1, 2]⟩
    (by decide) rfl).1
  have hlin := ((C1_wrench_arity_dichotomy c1Robot 0 none none).2.2
    (by decide) ⟨1, "body", false, [0, 1, 2]⟩ (by decide) rfl).2
    (by decide)
  exact ⟨G, hG, hcnt, hlin⟩

/-- The `resetSim` produces the same state for two simulator objects whose
configuration fields agree: the reset state is fully determined by `robot_`,
`initial_angles_`, `initial_vels_`, `gravity_` and `planar_axis_`. -/
theorem resetSim_eq_of_config (s s' : SimState)
    (h1 : s'.robot = s.robot) (h2 : s'.initialAngles = s.initialAngles)
    (h3 : s'.initialVels = s.initialVels) (h4 : s'.gravity = s.gravity)
    (h5 : s'.planarAxis = s.planarAxis) (tr : ℚ) :
    resetSim s' tr = resetSim s tr := by
  unfold resetSim
  cases s
  cases s'
  simp_all

/-- The `forwardDynamics` only writes `as_` and `results_`. -/
theorem forwardDynamics_config (solver : Solver) (s : SimState)
    (tq : JointValues) :
    (forwardDynamics solver s tq).robot = s.robot ∧
    (forwardDynamics solver s tq).initialAngles = s.initialAngles ∧
    (forwardDynamics solver s tq).initialVels = s.initialVels ∧
    (forwardDynamics solver s tq).gravity = s.gravity ∧
    (forwardDynamics solver s tq).planarAxis = s.planarAxis :=
  ⟨rfl, rfl, rfl, rfl, rfl⟩

/-- The `integration` only writes `qs_` and `vs_`. -/
theorem integration_config (s : SimState) (dt : ℚ) (s' : SimState)
    (h : integration s dt = some s') :
    s'.robot = s.robot ∧ s'.initialAngles = s.initialAngles ∧
    s'.initialVels = s.initialVels ∧ s'.gravity = s.gravity ∧
    s'.planarAxis = s.planarAxis := by
  unfold integration at h
  cases hm : s.robot.joints.mapM (fun j => do
      let v ← jvAt s.vs j.name
      let a ← jvAt s.accels j.name
      let q ← jvAt s.qs j.name
      pure ((j.name, v + dt * a),
            (j.name, q + dt * v + (1 : ℚ)/2 * a * dt ^ 2))) with
  | none =>
    rw [hm] at h
    cases h
  | some pairs =>
    rw [hm] at h
    cases h
    exact ⟨rfl, rfl, rfl, rfl, rfl⟩

/-- One `Simulator::step` never changes the configuration fields that `reset`
restores from. -/
theorem simStep_config (solver : Solver) (s : SimState) (tq : JointValues)
    (dt : ℚ) (s' : SimState) (h : simStep solver s tq dt = some s') :
    s'.robot = s.robot ∧ s'.initialAngles = s.initialAngles ∧
    s'.initialVels = s.initialVels ∧ s'.gravity = s.gravity ∧
    s'.planarAxis = s.planarAxis := by
  have hun : simStep solver s tq dt =
      (integration (forwardDynamics solver s tq) dt).bind
        (fun s2 => some { s2 with t := s2.t + 1 }) := rfl
  rw [hun] at h
  cases hint : integration (forwardDynamics solver s tq) dt with
  | none =>
    rw [hint] at h
    cases h
  | some s2 =>
    rw [hint] at h
    cases h
    have h2 := integration_config (forwardDynamics solver s tq) dt s2 hint
    have h1 := forwardDynamics_config solver s tq
    exact ⟨h2.1.trans h1.1, h2.2.1.trans h1.2.1, h2.2.2.1.trans h1.2.2.1,
      h2.2.2.2.1.trans h1.2.2.2.1, h2.2.2.2.2.trans h1.2.2.2.2⟩

/-- Every state along a simulation trace resets to the same state as the
starting state does. -/
theorem simulateTrace_reset (solver : Solver) (dt : ℚ) :
    ∀ (seq : List JointValues) (s s' : SimState),
      s' ∈ simulateTrace solver s seq dt → resetSim s' 0 = resetSim s 0 := by
  intro seq
  induction seq with
  | nil => intro s s' h; cases h
  | cons tq rest ih =>
    intro s s' hmem
    cases hstep : simStep solver s tq dt with
    | none =>
      simp only [simulateTrace, hstep] at hmem
      cases hmem
    | some s2 =>
      simp only [simulateTrace, hstep] at hmem
      rcases List.mem_cons.mp hmem with h | h
      · subst h
        obtain ⟨h1, h2, h3, h4, h5⟩ := simStep_config solver s tq dt s' hstep
        exact resetSim_eq_of_config s s' h1 h2 h3 h4 h5 0
      · obtain ⟨h1, h2, h3, h4, h5⟩ := simStep_config solver s tq dt s2 hstep
        exact (ih s2 s' h).trans (resetSim_eq_of_config s s2 h1 h2 h3 h4 h5 0)

/-- Resetting a freshly reset simulator changes nothing. -/
theorem resetSim_resetSim (s : SimState) :
    resetSim (resetSim s 0) 0 = resetSim s 0 := rfl

/-- C7: Two-run determinism of the simulator: run a torque sequence from a
reset simulator, call `reset(0)` on the resulting state, and replay the same
sequence with the same `dt` — the full per-step state trajectory (timestep,
`qs_`, `vs_`, `as_` and the accumulated results) is reproduced identically,
because `reset` restores the initial angles and velocities, clears the
accelerations and the accumulated results, and no other state influences a
step (the abstract solver is a deterministic function of the step inputs). -/
theorem C7_two_run_determinism (solver : Solver) (s : SimState)
    (seq : List JointValues) (dt : ℚ) :
    simulateTrace solver
      (resetSim (((simulateTrace solver (resetSim s 0) seq dt).getLast?).getD
        (resetSim s 0)) 0) seq dt =
    simulateTrace solver (resetSim s 0) seq dt := by
  have hkey : resetSim (((simulateTrace solver (resetSim s 0) seq dt).getLast?).getD
      (resetSim s 0)) 0 = resetSim s 0 := by
    cases hlast : (simulateTrace solver (resetSim s 0) seq dt).getLast? with
    | none =>
      simp only [hlast, Option.getD_none]
      exact resetSim_resetSim s
    | some a =>
      have hmemopt : a ∈ (simulateTrace solver (resetSim s 0) seq dt).getLast? := by
        rw [hlast]
        rfl
      obtain ⟨hne, heq⟩ := List.mem_getLast?_eq_getLast hmemopt
      have hmem : a ∈ simulateTrace solver (resetSim s 0) seq dt := by
        rw [heq]
        exact List.getLast_mem hne
      have := simulateTrace_reset solver dt seq (resetSim s 0) a hmem
      simp only [hlast, Option.getD_some]
      exact this.trans (resetSim_resetSim s)
  rw [hkey]

/-- Factor kinds emitted by the link loops of the per-timestep builders. -/
def isLinkFactor : Factor → Bool
  | .priorPose _ => true
  | .priorTwist _ => true
  | .priorTwistAccel _ => true
  | .wrench0 _ _ _ => true
  | .wrench1 _ _ _ _ => true
  | .wrench2 _ _ _ _ _ => true
  | .wrench3 _ _ _ _ _ _ => true
  | .wrench4 _ _ _ _ _ _ _ => true
  | _ => false

/-- Factor kinds emitted by the joint loops of the per-timestep builders. -/
def isJointFactor : Factor → Bool
  | .poseFactor _ _ _ => true
  | .twistFactor _ _ _ _ => true
  | .twistAccelFactor _ _ _ _ _ _ => true
  | .wrenchEq _ _ _ => true
  | .torqueFactor _ _ => true
  | .wrenchPlanar _ _ => true
  | _ => false

/-- Row kinds emitted by the link loop of the linear builder. -/
def isLinLinkRow : LinFactor → Bool
  | .fixedAccelPrior _ => true
  | .wrenchBalance0 _ => true
  | .wrenchBalance1 _ _ => true
  | .wrenchBalance2 _ _ _ => true
  | _ => false

/-- Row kinds emitted by the joint loop of the linear builder. -/
def isLinJointRow : LinFactor → Bool
  | .twistAccelRow _ _ _ => true
  | .torqueRow _ _ => true
  | .wrenchEqRow _ _ => true
  | .planarRow _ _ => true
  | _ => false

/-- The link loop of `dynamicsFactors` emits only link-derived factors. -/
theorem dynamicsFactorsLinks_all_link (t : Int) :
    ∀ (ls : List RobotLink) (G : List Factor),
      dynamicsFactorsLinks t ls = .ok G →
      ∀ f ∈ G, isLinkFactor f = true := by
  intro ls
  induction ls with
  | nil =>
    intro G h f hf
    cases h
    cases hf
  | cons l rest ih =>
    intro G h f hf
    by_cases hfix : l.isFixed
    · simp only [dynamicsFactorsLinks, hfix, if_true] at h
      exact ih G h f hf
    · simp only [dynamicsFactorsLinks, hfix, if_false] at h
      cases hw : linkWrenchFactor l t with
      | error e => rw [hw] at h; cases h
      | ok f0 =>
        rw [hw] at h
        cases hr : dynamicsFactorsLinks t rest with
        | error e => rw [hr] at h; cases h
        | ok G' =>
          rw [hr] at h
          cases h
          rcases List.mem_cons.mp hf with hc | hc
          · subst hc
            unfold linkWrenchFactor at hw
            rcases hj : l.joints with _ | ⟨a, _ | ⟨b, _ | ⟨c, _ | ⟨d, _ | ⟨e, r0⟩⟩⟩⟩⟩ <;>
              rw [hj] at hw <;>
              simp only [wrenchFactorOf] at hw <;>
              first
              | (cases hw; rfl)
              | cases hw
          · exact ih G' hr f hc

/-- The joint loop of `dynamicsFactors` emits only joint-derived factors. -/
theorem dynamicsFactorsJoints_all_joint (robot : UniversalRobot) (t : Int)
    (p : Option (ℚ × ℚ × ℚ)) :
    ∀ f ∈ dynamicsFactorsJoints robot t p, isJointFactor f = true := by
  intro f hf
  simp only [dynamicsFactorsJoints, List.mem_flatMap] at hf
  obtain ⟨j, _, hjf⟩ := hf
  cases p with
  | none =>
    simp only [List.mem_append, List.mem_cons, List.not_mem_nil,
      or_false] at hjf
    rcases hjf with h | h <;> subst h <;> rfl
  | some ax =>
    simp only [List.mem_append, List.mem_cons, List.not_mem_nil,
      or_false] at hjf
    rcases hjf with (h | h) | h <;> subst h <;> rfl

/-- The link loop of the linear builder emits only link-derived rows. -/
theorem linearDynamicsLinks_all_link (t : Int) :
    ∀ ls : List RobotLink, ∀ f ∈ linearDynamicsLinks t ls,
      isLinLinkRow f = true := by
  intro ls
  induction ls with
  | nil => intro f hf; cases hf
  | cons l rest ih =>
    intro f hf
    have hcons : linearDynamicsLinks t (l :: rest) =
        linLinkRows l t ++ linearDynamicsLinks t rest := by
      simp [linearDynamicsLinks]
    rw [hcons] at hf
    rcases List.mem_append.mp hf with hc | hc
    · by_cases hfix : l.isFixed
      · rw [linLinkRows, if_pos hfix] at hc
        simp at hc
        subst hc
        rfl
      · rw [linLinkRows, if_neg hfix] at hc
        rcases hj : l.joints with _ | ⟨a, _ | ⟨b, r0⟩⟩ <;>
          rw [hj] at hc <;>
          simp only [linWrenchRowsOf] at hc
        · simp at hc; subst hc; rfl
        · simp at hc; subst hc; rfl
        · rcases r0 with _ | ⟨c, r1⟩
          · simp only [linWrenchRowsOf] at hc
            simp at hc
            subst hc
            rfl
          · simp only [linWrenchRowsOf] at hc
            cases hc
    · exact ih f hc

/-- The joint loop of the linear builder emits only joint-derived rows. -/
theorem linearDynamicsJoints_all_joint (t : Int) (p : Option (ℚ × ℚ × ℚ)) :
    ∀ js : List RobotJoint, ∀ f ∈ linearDynamicsJoints t p js,
      isLinJointRow f = true := by
  intro js
  induction js with
  | nil => intro f hf; cases hf
  | cons j rest ih =>
    intro f hf
    cases p with
    | none =>
      simp only [linearDynamicsJoints, List.mem_append, List.mem_cons,
        List.not_mem_nil, or_false] at hf
      rcases hf with (h | h | h) | h
      · subst h; rfl
      · subst h; rfl
      · subst h; rfl
      · exact ih f h
    | some ax =>
      simp only [linearDynamicsJoints, List.mem_append, List.mem_cons,
        List.not_mem_nil, or_false] at hf
      rcases hf with ((h | h | h) | h) | h
      · subst h; rfl
      · subst h; rfl
      · subst h; rfl
      · subst h; rfl
      · exact ih f h

/-- C9: In every per-timestep factor builder (`qFactors`, `vFactors`,
`aFactors`, `dynamicsFactors` and the linear dynamics graph) all factors
derived from links precede all factors derived from joints, and each builder
is a deterministic function of the robot model's link and joint lists alone
(two robots with the same links and joints yield identical factor
sequences). -/
theorem C9_link_factors_precede (robot r1 r2 : UniversalRobot) (t : Int)
    (g p : Option (ℚ × ℚ × ℚ)) :
    (∃ L J, qFactors robot t = L ++ J ∧
      (∀ f ∈ L, isLinkFactor f = true) ∧ (∀ f ∈ J, isJointFactor f = true)) ∧
    (∃ L J, vFactors robot t = L ++ J ∧
      (∀ f ∈ L, isLinkFactor f = true) ∧ (∀ f ∈ J, isJointFactor f = true)) ∧
    (∃ L J, aFactors robot t = L ++ J ∧
      (∀ f ∈ L, isLinkFactor f = true) ∧ (∀ f ∈ J, isJointFactor f = true)) ∧
    (∀ G, dynamicsFactors robot t g p = .ok G →
      ∃ L J, G = L ++ J ∧
        (∀ f ∈ L, isLinkFactor f = true) ∧ (∀ f ∈ J, isJointFactor f = true)) ∧
    (∃ L J, linearDynamicsGraph robot t g p = L ++ J ∧
      (∀ f ∈ L, isLinLinkRow f = true) ∧ (∀ f ∈ J, isLinJointRow f = true)) ∧
    (r1.links = r2.links → r1.joints = r2.joints →
      qFactors r1 t = qFactors r2 t ∧ vFactors r1 t = vFactors r2 t ∧
      aFactors r1 t = aFactors r2 t ∧
      dynamicsFactors r1 t g p = dynamicsFactors r2 t g p ∧
      linearDynamicsGraph r1 t g p = linearDynamicsGraph r2 t g p) := by
  refine ⟨?_, ?_, ?_, ?_, ?_, ?_⟩
  · refine ⟨_, _, rfl, ?_, ?_⟩
    · intro f hf
      obtain ⟨l, _, hl⟩ := List.mem_filterMap.mp hf
      by_cases hfix : l.isFixed <;> simp [hfix] at hl
      subst hl
      rfl
    · intro f hf
      obtain ⟨j, _, hj⟩ := List.mem_map.mp hf
      subst hj
      rfl
  · refine ⟨_, _, rfl, ?_, ?_⟩
    · intro f hf
      obtain ⟨l, _, hl⟩ := List.mem_filterMap.mp hf
      by_cases hfix : l.isFixed <;> simp [hfix] at hl
      subst hl
      rfl
    · intro f hf
      obtain ⟨j, _, hj⟩ := List.mem_map.mp hf
      subst hj
      rfl
  · refine ⟨_, _, rfl, ?_, ?_⟩
    · intro f hf
      obtain ⟨l, _, hl⟩ := List.mem_filterMap.mp hf
      by_cases hfix : l.isFixed <;> simp [hfix] at hl
      subst hl
      rfl
    · intro f hf
      obtain ⟨j, _, hj⟩ := List.mem_map.mp hf
      subst hj
      rfl
  · intro G hG
    cases hl : dynamicsFactorsLinks t robot.links with
    | error e =>
      rw [dynamicsFactors_eq_err robot t g p e hl] at hG
      cases hG
    | ok L0 =>
      rw [dynamicsFactors_eq_ok robot t g p L0 hl] at hG
      cases hG
      exact ⟨L0, dynamicsFactorsJoints robot t p, rfl,
        dynamicsFactorsLinks_all_link t robot.links L0 hl,
        dynamicsFactorsJoints_all_joint robot t p⟩
  · exact ⟨linearDynamicsLinks t robot.links,
      linearDynamicsJoints t p robot.joints, rfl,
      linearDynamicsLinks_all_link t robot.links,
      linearDynamicsJoints_all_joint t p robot.joints⟩
  · intro hlk hjt
    refine ⟨?_, ?_, ?_, ?_, ?_⟩
    · unfold qFactors
      rw [hlk, hjt]
    · unfold vFactors
      rw [hlk, hjt]
    · unfold aFactors
      rw [hlk, hjt]
    · unfold dynamicsFactors dynamicsFactorsJoints
      rw [hlk, hjt]
    · unfold linearDynamicsGraph
      rw [hlk, hjt]

/-- Concrete robot for the C9 witness. -/
def c9Robot : UniversalRobot :=
  ⟨[⟨0, "base", true, [0]⟩, ⟨1, "arm", false, [0]⟩], [⟨0, "j", 0, 1⟩], "base"⟩

/-- The same robot with a different base name, for the determinism
conjunct. -/
def c9RobotB : UniversalRobot :=
  ⟨[⟨0, "base", true, [0]⟩, ⟨1, "arm", false, [0]⟩], [⟨0, "j", 0, 1⟩], "other"⟩

/-- Witness for C9 at a concrete robot: the split of `qFactors` into
link-derived then joint-derived factors, and determinism across two robots
differing only outside the link/joint lists. -/
theorem C9_witness :
    (∃ L J, qFactors c9Robot 0 = L ++ J ∧
      (∀ f ∈ L, isLinkFactor f = true) ∧
      (∀ f ∈ J, isJointFactor f = true)) ∧
    qFactors c9Robot 0 = qFactors c9RobotB 0 :=
  ⟨(C9_link_factors_precede c9Robot c9Robot c9RobotB 0 none none).1,
   ((C9_link_factors_precede c9Robot c9Robot c9RobotB 0 none none).2.2.2.2.2
     rfl rfl).1⟩

/-- A flatMap over pointwise-appended segments is a permutation of the two
flatMaps appended. -/
theorem flatMap_append_perm {α β : Type} (ts : List α) (A B : α → List β) :
    (ts.flatMap fun t => A t ++ B t).Perm (ts.flatMap A ++ ts.flatMap B) := by
  induction ts with
  | nil => rfl
  | cons t ts ih =>
    simp only [List.flatMap_cons]
    have h1 : ((A t ++ B t) ++ ts.flatMap fun x => A x ++ B x).Perm
        ((A t ++ B t) ++ (ts.flatMap A ++ ts.flatMap B)) :=
      List.Perm.append_left (A t ++ B t) ih
    have h2 : (B t ++ ts.flatMap A).Perm (ts.flatMap A ++ B t) :=
      List.perm_append_comm
    have h3 : ((A t ++ B t) ++ (ts.flatMap A ++ ts.flatMap B)).Perm
        ((A t ++ ts.flatMap A) ++ (B t ++ ts.flatMap B)) := by
      have e1 : (A t ++ B t) ++ (ts.flatMap A ++ ts.flatMap B) =
          A t ++ ((B t ++ ts.flatMap A) ++ ts.flatMap B) := by
        simp [List.append_assoc]
      have e2 : (A t ++ ts.flatMap A) ++ (B t ++ ts.flatMap B) =
          A t ++ ((ts.flatMap A ++ B t) ++ ts.flatMap B) := by
        simp [List.append_assoc]
      rw [e1, e2]
      exact List.Perm.append_left (A t)
        (List.Perm.append_right (ts.flatMap B) h2)
    exact h1.trans h3

/-- Dropping an `if` guard under `flatMap` when the guard holds on every
element. -/
theorem flatMap_ite_of_mem {α β : Type} (ts : List α) (q : α → Prop)
    [DecidablePred q] (C : α → List β) (h : ∀ t ∈ ts, q t) :
    (ts.flatMap fun t => if q t then C t else []) = ts.flatMap C := by
  induction ts with
  | nil => rfl
  | cons t rest ih =>
    simp only [List.flatMap_cons]
    rw [if_pos (h t (List.mem_cons_self t rest)),
      ih (fun x hx => h x (List.mem_cons_of_mem _ hx))]

/-- Shape of a successful `trajectoryFG` loop: per listed timestep, the
one-step dynamics graph followed by (below `num_steps`) the collocation
factors, concatenated in loop order; all sub-builders succeeded. -/
theorem trajectoryFGLoop_spec (robot : UniversalRobot) (numSteps : Nat)
    (dt : ℚ) (sch : CollocationScheme) (g p : Option (ℚ × ℚ × ℚ)) :
    ∀ (ts : List Nat) (G : List Factor),
      trajectoryFGLoop robot numSteps dt sch g p ts = .ok G →
      (∀ t ∈ ts, ∃ d, dynamicsFactorGraph robot t g p = .ok d) ∧
      (∀ t ∈ ts, t < numSteps →
        ∃ c, collocationFactors robot t dt sch = .ok c) ∧
      G = ts.flatMap fun t =>
        (dynamicsFactorGraph robot t g p).toOption.getD [] ++
        (if t < numSteps then
          (collocationFactors robot t dt sch).toOption.getD [] else []) := by
  intro ts
  induction ts with
  | nil =>
    intro G h
    cases h
    exact ⟨by simp, by simp, rfl⟩
  | cons t rest ih =>
    intro G h
    simp only [trajectoryFGLoop] at h
    cases hd : dynamicsFactorGraph robot t g p with
    | error e => rw [hd] at h; cases h
    | ok d =>
      rw [hd] at h
      by_cases hlt : t < numSteps
      · simp only [if_pos hlt] at h
        cases hc : collocationFactors robot t dt sch with
        | error e => rw [hc] at h; cases h
        | ok c =>
          rw [hc] at h
          cases hr : trajectoryFGLoop robot numSteps dt sch g p rest with
          | error e => rw [hr] at h; cases h
          | ok G' =>
            rw [hr] at h
            cases h
            obtain ⟨ihd, ihc, ihG⟩ := ih G' hr
            refine ⟨?_, ?_, ?_⟩
            · intro x hx
              rcases List.mem_cons.mp hx with hx | hx
              · exact ⟨d, by rw [hx]; exact hd⟩
              · exact ihd x hx
            · intro x hx hxlt
              rcases List.mem_cons.mp hx with hx | hx
              · subst hx
                exact ⟨c, hc⟩
              · exact ihc x hx hxlt
            · rw [List.flatMap_cons, ← ihG]
              simp [hd, hc, hlt, Except.toOption, List.append_assoc]
      · simp only [if_neg hlt] at h
        cases hr : trajectoryFGLoop robot numSteps dt sch g p rest with
        | error e => rw [hr] at h; cases h
        | ok G' =>
          rw [hr] at h
          cases h
          obtain ⟨ihd, ihc, ihG⟩ := ih G' hr
          refine ⟨?_, ?_, ?_⟩
          · intro x hx
            rcases List.mem_cons.mp hx with hx | hx
            · exact ⟨d, by rw [hx]; exact hd⟩
            · exact ihd x hx
          · intro x hx hxlt
            rcases List.mem_cons.mp hx with hx | hx
            · subst hx
              exact absurd hxlt hlt
            · exact ihc x hx hxlt
          · rw [List.flatMap_cons, ← ihG]
            simp [hd, hlt, Except.toOption]

/-- C6: For every `N ≥ 0`, a successful `trajectoryFG(robot, N, dt,
scheme)` consists of exactly the factors of the one-step dynamics graph for
each timestep `t = 0 .. N` (N+1 step subgraphs) together with the collocation
factors linking steps `t` and `t+1` for `t = 0 .. N-1` (N collocation
subgraphs), and nothing else (as a permutation — the loop interleaves the
subgraphs). -/
theorem C6_trajectoryFG_content (robot : UniversalRobot) (numSteps : Nat)
    (dt : ℚ) (sch : CollocationScheme) (g p : Option (ℚ × ℚ × ℚ))
    (G : List Factor)
    (h : trajectoryFG robot numSteps dt sch g p = .ok G) :
    ∃ D C : Nat → List Factor,
      (∀ t : Nat, t ≤ numSteps → dynamicsFactorGraph robot t g p = .ok (D t)) ∧
      (∀ t : Nat, t < numSteps →
        collocationFactors robot t dt sch = .ok (C t)) ∧
      G.Perm ((List.range (numSteps + 1)).flatMap D ++
              (List.range numSteps).flatMap C) := by
  obtain ⟨hd, hc, hG⟩ := trajectoryFGLoop_spec robot numSteps dt sch g p
    (List.range (numSteps + 1)) G h
  refine ⟨fun t => (dynamicsFactorGraph robot t g p).toOption.getD [],
    fun t => (collocationFactors robot t dt sch).toOption.getD [], ?_, ?_, ?_⟩
  · intro t ht
    obtain ⟨d, hdt⟩ := hd t (List.mem_range.mpr (by omega))
    simp [hdt, Except.toOption]
  · intro t ht
    obtain ⟨c, hct⟩ := hc t (List.mem_range.mpr (by omega)) ht
    simp [hct, Except.toOption]
  · rw [hG]
    refine (flatMap_append_perm _ _ _).trans ?_
    have hguard : ((List.range (numSteps + 1)).flatMap fun t =>
        if t < numSteps then
          (collocationFactors robot t dt sch).toOption.getD [] else []) =
        (List.range numSteps).flatMap fun t =>
          (collocationFactors robot t dt sch).toOption.getD [] := by
      rw [List.range_succ, List.flatMap_append]
      have h1 : ((List.range numSteps).flatMap fun t =>
          if t < numSteps then
            (collocationFactors robot t dt sch).toOption.getD [] else []) =
          (List.range numSteps).flatMap fun t =>
            (collocationFactors robot t dt sch).toOption.getD [] :=
        flatMap_ite_of_mem _ _ _ (fun t ht => List.mem_range.mp ht)
      rw [h1]
      simp
    rw [hguard]

/-- Concrete two-link robot for the C6 witness. -/
def c6Robot : UniversalRobot :=
  ⟨[⟨0, "base", true, [0]⟩, ⟨1, "arm", false, [0]⟩], [⟨0, "j", 0, 1⟩], "base"⟩

/-- Witness for C6 at the concrete robot, `N = 1`, Euler collocation. -/
theorem C6_witness :
    ∃ D C : Nat → List Factor,
      (∀ t : Nat, t ≤ 1 → dynamicsFactorGraph c6Robot t none none = .ok (D t)) ∧
      (∀ t : Nat, t < 1 → collocationFactors c6Robot t 1 .Euler = .ok (C t)) ∧
      ((trajectoryFG c6Robot 1 1 .Euler none none).toOption.getD []).Perm
        ((List.range 2).flatMap D ++ (List.range 1).flatMap C) :=
  C6_trajectoryFG_content c6Robot 1 1 .Euler none none
    ((trajectoryFG c6Robot 1 1 .Euler none none).toOption.getD []) (by rfl)

/-- The `qFactors` references no phase key. -/
theorem qFactors_no_phase (robot : UniversalRobot) (t : Int) :
    ∀ f ∈ qFactors robot t, ∀ q, DynKey.phase q ∉ factorKeys f := by
  intro f hf q
  unfold qFactors at hf
  rcases List.mem_append.mp hf with hc | hc
  · obtain ⟨l, _, hl⟩ := List.mem_filterMap.mp hc
    by_cases hfix : l.isFixed <;> simp [hfix] at hl
    subst hl
    simp [factorKeys]
  · obtain ⟨j, _, hj⟩ := List.mem_map.mp hc
    subst hj
    simp [factorKeys]

/-- The `vFactors` references no phase key. -/
theorem vFactors_no_phase (robot : UniversalRobot) (t : Int) :
    ∀ f ∈ vFactors robot t, ∀ q, DynKey.phase q ∉ factorKeys f := by
  intro f hf q
  unfold vFactors at hf
  rcases List.mem_append.mp hf with hc | hc
  · obtain ⟨l, _, hl⟩ := List.mem_filterMap.mp hc
    by_cases hfix : l.isFixed <;> simp [hfix] at hl
    subst hl
    simp [factorKeys]
  · obtain ⟨j, _, hj⟩ := List.mem_map.mp hc
    subst hj
    simp [factorKeys]

/-- The `aFactors` references no phase key. -/
theorem aFactors_no_phase (robot : UniversalRobot) (t : Int) :
    ∀ f ∈ aFactors robot t, ∀ q, DynKey.phase q ∉ factorKeys f := by
  intro f hf q
  unfold aFactors at hf
  rcases List.mem_append.mp hf with hc | hc
  · obtain ⟨l, _, hl⟩ := List.mem_filterMap.mp hc
    by_cases hfix : l.isFixed <;> simp [hfix] at hl
    subst hl
    simp [factorKeys]
  · obtain ⟨j, _, hj⟩ := List.mem_map.mp hc
    subst hj
    simp [factorKeys]

/-- The link loop of `dynamicsFactors` references no phase key. -/
theorem dynamicsFactorsLinks_no_phase (t : Int) :
    ∀ (ls : List RobotLink) (G : List Factor),
      dynamicsFactorsLinks t ls = .ok G →
      ∀ f ∈ G, ∀ q, DynKey.phase q ∉ factorKeys f := by
  intro ls
  induction ls with
  | nil =>
    intro G h f hf
    cases h
    cases hf
  | cons l rest ih =>
    intro G h f hf q
    by_cases hfix : l.isFixed
    · simp only [dynamicsFactorsLinks, hfix, if_true] at h
      exact ih G h f hf q
    · simp only [dynamicsFactorsLinks, hfix, if_false] at h
      cases hw : linkWrenchFactor l t with
      | error e => rw [hw] at h; cases h
      | ok f0 =>
        rw [hw] at h
        cases hr : dynamicsFactorsLinks t rest with
        | error e => rw [hr] at h; cases h
        | ok G' =>
          rw [hr] at h
          cases h
          rcases List.mem_cons.mp hf with hc | hc
          · subst hc
            unfold linkWrenchFactor at hw
            rcases hj : l.joints with _ | ⟨a, _ | ⟨b, _ | ⟨c0, _ | ⟨d, _ | ⟨e, r0⟩⟩⟩⟩⟩ <;>
              rw [hj] at hw <;>
              simp only [wrenchFactorOf] at hw <;>
              first
              | (cases hw; simp [factorKeys])
              | cases hw
          · exact ih G' hr f hc q

/-- The joint loop of `dynamicsFactors` references no phase key. -/
theorem dynamicsFactorsJoints_no_phase (robot : UniversalRobot) (t : Int)
    (p : Option (ℚ × ℚ × ℚ)) :
    ∀ f ∈ dynamicsFactorsJoints robot t p, ∀ q,
      DynKey.phase q ∉ factorKeys f := by
  intro f hf q
  simp only [dynamicsFactorsJoints, List.mem_flatMap] at hf
  obtain ⟨j, _, hjf⟩ := hf
  cases p with
  | none =>
    simp only [List.mem_append, List.mem_cons, List.not_mem_nil,
      or_false] at hjf
    rcases hjf with h | h <;> subst h <;> simp [factorKeys]
  | some ax =>
    simp only [List.mem_append, List.mem_cons, List.not_mem_nil,
      or_false] at hjf
    rcases hjf with (h | h) | h <;> subst h <;> simp [factorKeys]

/-- A one-step dynamics graph references no phase key: every phase variable in
a multi-phase graph comes from collocation (or from the caller's transition
graphs). -/
theorem dynamicsFactorGraph_no_phase (robot : UniversalRobot) (t : Int)
    (g p : Option (ℚ × ℚ × ℚ)) (G : List Factor)
    (h : dynamicsFactorGraph robot t g p = .ok G) :
    ∀ f ∈ G, ∀ q, DynKey.phase q ∉ factorKeys f := by
  intro f hf q
  cases hl : dynamicsFactorsLinks t robot.links with
  | error e =>
    have := dynamicsFactors_eq_err robot t g p e hl
    unfold dynamicsFactorGraph at h
    rw [this] at h
    cases h
  | ok L0 =>
    have hdf := dynamicsFactors_eq_ok robot t g p L0 hl
    unfold dynamicsFactorGraph at h
    rw [hdf] at h
    cases h
    rcases List.mem_append.mp hf with hc | hc
    · rcases List.mem_append.mp hc with hc2 | hc2
      · rcases List.mem_append.mp hc2 with hc3 | hc3
        · exact qFactors_no_phase robot t f hc3 q
        · exact vFactors_no_phase robot t f hc3 q
      · exact aFactors_no_phase robot t f hc2 q
    · rcases List.mem_append.mp hc with hc2 | hc2
      · exact dynamicsFactorsLinks_no_phase t robot.links L0 hl f hc2 q
      · exact dynamicsFactorsJoints_no_phase robot t p f hc2 q

/-- The factors built by the `multiPhaseCollocationFactors` joint loop carry
the phase key of their phase — and no other phase key — and the loop emits at
least one such factor as soon as there is a joint. -/
theorem mpCollocJoints_spec (t : Int) (ph : Nat) (sch : CollocationScheme) :
    ∀ (js : List RobotJoint) (F : List Factor),
      multiPhaseCollocationJoints t ph sch js = .ok F →
      (∀ f ∈ F, ∀ q, DynKey.phase q ∈ factorKeys f → q = ph) ∧
      (js ≠ [] → ∃ f ∈ F, DynKey.phase ph ∈ factorKeys f) := by
  intro js
  induction js with
  | nil =>
    intro F h
    cases h
    exact ⟨by simp, fun hne => absurd rfl hne⟩
  | cons j rest ih =>
    intro F h
    cases sch with
    | Euler =>
      simp only [multiPhaseCollocationJoints] at h
      cases hr : multiPhaseCollocationJoints t ph .Euler rest with
      | error e => rw [hr] at h; cases h
      | ok F' =>
        rw [hr] at h
        cases h
        obtain ⟨ih1, _⟩ := ih F' hr
        constructor
        · intro f hf q hq
          rcases List.mem_append.mp hf with hc | hc
          · simp only [List.mem_cons, List.not_mem_nil, or_false] at hc
            rcases hc with hc | hc <;> subst hc <;>
              simpa [factorKeys, Expr.keys, mpEulerQExpr, mpEulerVExpr]
                using hq
          · exact ih1 f hc q hq
        · intro _
          exact ⟨.exprFactor (mpEulerQExpr j.id t ph), by simp,
            by simp [factorKeys, Expr.keys, mpEulerQExpr]⟩
    | Trapezoidal =>
      simp only [multiPhaseCollocationJoints] at h
      cases hr : multiPhaseCollocationJoints t ph .Trapezoidal rest with
      | error e => rw [hr] at h; cases h
      | ok F' =>
        rw [hr] at h
        cases h
        obtain ⟨ih1, _⟩ := ih F' hr
        constructor
        · intro f hf q hq
          rcases List.mem_append.mp hf with hc | hc
          · simp only [List.mem_cons, List.not_mem_nil, or_false] at hc
            rcases hc with hc | hc <;> subst hc <;>
              simpa [factorKeys, Expr.keys, mpTrapQExpr, mpTrapVExpr]
                using hq
          · exact ih1 f hc q hq
        · intro _
          exact ⟨.exprFactor (mpTrapQExpr j.id t ph), by simp,
            by simp [factorKeys, Expr.keys, mpTrapQExpr]⟩
    | RungeKutta =>
      simp only [multiPhaseCollocationJoints] at h
      cases h
    | HermiteSimpson =>
      simp only [multiPhaseCollocationJoints] at h
      cases h

/-- Phase-key characterization of the per-phase collocation step loop. -/
theorem mpCollocSteps_spec (sch : CollocationScheme) (r : UniversalRobot)
    (ph : Nat) :
    ∀ (k : Nat) (t : Int) (G : List Factor),
      mpCollocSteps sch r ph t k = .ok G →
      (∀ f ∈ G, ∀ q, DynKey.phase q ∈ factorKeys f → q = ph) ∧
      (1 ≤ k → r.joints ≠ [] → ∃ f ∈ G, DynKey.phase ph ∈ factorKeys f) := by
  intro k
  induction k with
  | zero =>
    intro t G h
    cases h
    exact ⟨by simp, fun h0 => (Nat.not_succ_le_zero 0 h0).elim⟩
  | succ k ihk =>
    intro t G h
    simp only [mpCollocSteps] at h
    cases hc : multiPhaseCollocationFactors r t ph sch with
    | error e => rw [hc] at h; cases h
    | ok C =>
      rw [hc] at h
      cases hr : mpCollocSteps sch r ph (t + 1) k with
      | error e => rw [hr] at h; cases h
      | ok G' =>
        rw [hr] at h
        cases h
        have hc' : multiPhaseCollocationJoints t ph sch r.joints = .ok C := hc
        obtain ⟨h1, h2⟩ := mpCollocJoints_spec t ph sch r.joints C hc'
        obtain ⟨h1', _⟩ := ihk (t + 1) G' hr
        refine ⟨?_, ?_⟩
        · intro f hf q hq
          rcases List.mem_append.mp hf with hcm | hcm
          · exact h1 f hcm q hq
          · exact h1' f hcm q hq
        · intro _ hj
          obtain ⟨f, hfm, hfk⟩ := h2 hj
          exact ⟨f, List.mem_append_left _ hfm, hfk⟩

/-- Phase-key characterization of the collocation phase loop: the phase keys
appearing in it are exactly the phase indices it walks (each phase having at
least one step and the robot at least one joint). -/
theorem mpCollocPhases_spec (sch : CollocationScheme) :
    ∀ (pairs : List (UniversalRobot × Nat)) (ph0 : Nat) (t : Int)
      (G : List Factor),
      mpCollocPhases sch pairs ph0 t = .ok G →
      (∀ pr ∈ pairs, 1 ≤ pr.2 ∧ pr.1.joints ≠ []) →
      ∀ q : Nat, (∃ f ∈ G, DynKey.phase q ∈ factorKeys f) ↔
        (ph0 ≤ q ∧ q < ph0 + pairs.length) := by
  intro pairs
  induction pairs with
  | nil =>
    intro ph0 t G h _ q
    cases h
    simp
  | cons pr ps ih =>
    intro ph0 t G h hprs q
    obtain ⟨r, steps⟩ := pr
    simp only [mpCollocPhases] at h
    cases hc : mpCollocSteps sch r ph0 t steps with
    | error e => rw [hc] at h; cases h
    | ok C =>
      rw [hc] at h
      cases hrest : mpCollocPhases sch ps (ph0 + 1) (t + steps) with
      | error e => rw [hrest] at h; cases h
      | ok G' =>
        rw [hrest] at h
        cases h
        obtain ⟨hCall, hCex⟩ := mpCollocSteps_spec sch r ph0 steps t C hc
        have hme := hprs (r, steps) (List.mem_cons_self _ _)
        have hiff := ih (ph0 + 1) (t + steps) G' hrest
          (fun x hx => hprs x (List.mem_cons_of_mem _ hx))
        simp only [List.length_cons]
        constructor
        · rintro ⟨f, hfm, hfk⟩
          rcases List.mem_append.mp hfm with hcm | hcm
          · have hq0 := hCall f hcm q hfk
            omega
          · have := (hiff q).mp ⟨f, hcm, hfk⟩
            omega
        · rintro ⟨hq1, hq2⟩
          by_cases hq : q = ph0
          · subst hq
            obtain ⟨f, hfm, hfk⟩ := hCex hme.1 hme.2
            exact ⟨f, List.mem_append_left _ hfm, hfk⟩
          · obtain ⟨f, hfm, hfk⟩ := (hiff q).mpr (by omega)
            exact ⟨f, List.mem_append_right _ hfm, hfk⟩

/-- The in-phase dynamics loop of the multi-phase assembly references no phase
key. -/
theorem mpInPhase_no_phase (r : UniversalRobot)
    (g pl : Option (ℚ × ℚ × ℚ)) :
    ∀ (k : Nat) (t : Int) (G : List Factor),
      mpInPhase r g pl t k = .ok G →
      ∀ f ∈ G, ∀ q, DynKey.phase q ∉ factorKeys f := by
  intro k
  induction k with
  | zero =>
    intro t G h f hf
    cases h
    cases hf
  | succ k ihk =>
    intro t G h f hf q
    simp only [mpInPhase] at h
    cases hd : dynamicsFactorGraph r (t + 1) g pl with
    | error e => rw [hd] at h; cases h
    | ok d =>
      rw [hd] at h
      cases hr : mpInPhase r g pl (t + 1) k with
      | error e => rw [hr] at h; cases h
      | ok G' =>
        rw [hr] at h
        cases h
        rcases List.mem_append.mp hf with hc | hc
        · exact dynamicsFactorGraph_no_phase r (t + 1) g pl d hd f hc q
        · exact ihk (t + 1) G' hr f hc q

/-- The dynamics/transition part of the multi-phase assembly references no
phase key, provided the caller's transition graphs do not. -/
theorem mpDynPhases_no_phase (g pl : Option (ℚ × ℚ × ℚ)) :
    ∀ (pairs : List (UniversalRobot × Nat)) (tgs : List (List Factor))
      (t : Int) (G : List Factor),
      mpDynPhases g pl pairs tgs t = .ok G →
      (∀ tg ∈ tgs, ∀ f ∈ tg, ∀ q, DynKey.phase q ∉ factorKeys f) →
      ∀ f ∈ G, ∀ q, DynKey.phase q ∉ factorKeys f := by
  intro pairs
  induction pairs with
  | nil =>
    intro tgs t G h _ f hf
    cases h
    cases hf
  | cons pr ps ih =>
    intro tgs t G h htgs f hf q
    obtain ⟨r, steps⟩ := pr
    cases ps with
    | nil =>
      simp only [mpDynPhases] at h
      cases hin : mpInPhase r g pl t (steps - 1) with
      | error e => rw [hin] at h; cases h
      | ok Gin =>
        rw [hin] at h
        cases hd : dynamicsFactorGraph r (t + (steps - 1) + 1) g pl with
        | error e => rw [hd] at h; cases h
        | ok d =>
          rw [hd] at h
          cases h
          rcases List.mem_append.mp hf with hc | hc
          · exact mpInPhase_no_phase r g pl (steps - 1) t Gin hin f hc q
          · exact dynamicsFactorGraph_no_phase r (t + (steps - 1) + 1)
              g pl d hd f hc q
    | cons p2 ps2 =>
      simp only [mpDynPhases] at h
      cases hin : mpInPhase r g pl t (steps - 1) with
      | error e => rw [hin] at h; cases h
      | ok Gin =>
        rw [hin] at h
        cases hrest : mpDynPhases g pl (p2 :: ps2) tgs.tail
            (t + (steps - 1) + 1) with
        | error e => rw [hrest] at h; cases h
        | ok G' =>
          rw [hrest] at h
          cases h
          rcases List.mem_append.mp hf with hc | hc
          · rcases List.mem_append.mp hc with hc2 | hc2
            · exact mpInPhase_no_phase r g pl (steps - 1) t Gin hin f hc2 q
            · cases tgs with
              | nil => cases hc2
              | cons tg0 tgs2 =>
                exact htgs tg0 (List.mem_cons_self _ _) f hc2 q
          · exact ih tgs.tail (t + (steps - 1) + 1) G' hrest
              (fun tg htg => htgs tg (List.mem_of_mem_tail htg)) f hc q

/-- The Euler branch of the `multiPhaseCollocationFactors` joint loop,
evaluated. -/
theorem mpCollocJoints_euler_eq (t : Int) (ph : Nat) :
    ∀ js : List RobotJoint,
      multiPhaseCollocationJoints t ph .Euler js =
        .ok (js.flatMap fun j =>
          [.exprFactor (mpEulerQExpr j.id t ph),
           .exprFactor (mpEulerVExpr j.id t ph)]) := by
  intro js
  induction js with
  | nil => rfl
  | cons j rest ihj =>
    simp only [multiPhaseCollocationJoints, ihj, List.flatMap_cons]
    rfl

/-- The Trapezoidal branch of the `multiPhaseCollocationFactors` joint loop,
evaluated. -/
theorem mpCollocJoints_trap_eq (t : Int) (ph : Nat) :
    ∀ js : List RobotJoint,
      multiPhaseCollocationJoints t ph .Trapezoidal js =
        .ok (js.flatMap fun j =>
          [.exprFactor (mpTrapQExpr j.id t ph),
           .exprFactor (mpTrapVExpr j.id t ph)]) := by
  intro js
  induction js with
  | nil => rfl
  | cons j rest ihj =>
    simp only [multiPhaseCollocationJoints, ihj, List.flatMap_cons]
    rfl

/-- C8: In a successfully assembled multi-phase trajectory graph (with
every phase at least one step long, robots with at least one joint, and
transition graphs free of phase keys), the phase keys appearing among the
graph's keys are exactly `PhaseKey(p)` for `p` below the number of phases —
one shared scalar duration variable per phase; every collocation factor for a
timestep of phase `p` carries only `PhaseKey(p)`, and the per-joint
Euler/Trapezoidal relations use that variable in place of a constant `dt`
(the residuals multiply the phase variable with the velocity/acceleration
variables). -/
theorem C8_phase_duration_variables (robots : List UniversalRobot)
    (steps : List Nat) (tgs : List (List Factor)) (sch : CollocationScheme)
    (g pl : Option (ℚ × ℚ × ℚ)) (G : List Factor)
    (hok : multiPhaseTrajectoryFG robots steps tgs sch g pl = .ok G)
    (hlen : steps.length = robots.length)
    (hsteps : ∀ s ∈ steps, 1 ≤ s)
    (hjoints : ∀ r ∈ robots, r.joints ≠ [])
    (htgs : ∀ tg ∈ tgs, ∀ f ∈ tg, ∀ q, DynKey.phase q ∉ factorKeys f) :
    (∀ q : Nat, (∃ f ∈ G, DynKey.phase q ∈ factorKeys f) ↔
      q < robots.length) ∧
    (∀ (r : UniversalRobot) (t : Int) (ph : Nat),
      multiPhaseCollocationFactors r t ph .Euler =
        .ok (r.joints.flatMap fun j =>
          [.exprFactor (mpEulerQExpr j.id t ph),
           .exprFactor (mpEulerVExpr j.id t ph)]) ∧
      multiPhaseCollocationFactors r t ph .Trapezoidal =
        .ok (r.joints.flatMap fun j =>
          [.exprFactor (mpTrapQExpr j.id t ph),
           .exprFactor (mpTrapVExpr j.id t ph)])) ∧
    (∀ (j t : Int) (ph : Nat) (asg : DynKey → ℚ),
      (mpEulerQExpr j t ph).eval asg =
        asg (.jointAngle j t) + asg (.phase ph) * asg (.jointVel j t) -
          asg (.jointAngle j (t + 1)) ∧
      (mpEulerVExpr j t ph).eval asg =
        asg (.jointVel j t) + asg (.phase ph) * asg (.jointAccel j t) -
          asg (.jointVel j (t + 1)) ∧
      (mpTrapQExpr j t ph).eval asg =
        asg (.jointAngle j t) +
          asg (.phase ph)/2 * (asg (.jointVel j t) + asg (.jointVel j (t + 1)))
          - asg (.jointAngle j (t + 1)) ∧
      (mpTrapVExpr j t ph).eval asg =
        asg (.jointVel j t) +
          asg (.phase ph)/2 *
            (asg (.jointAccel j t) + asg (.jointAccel j (t + 1)))
          - asg (.jointVel j (t + 1))) := by
  refine ⟨?_, ?_, ?_⟩
  · unfold multiPhaseTrajectoryFG at hok
    cases hd0 : dynamicsFactorGraph (robots.headD emptyRobot) 0 g pl with
    | error e => rw [hd0] at hok; cases hok
    | ok D0 =>
      rw [hd0] at hok
      cases hdyn : mpDynPhases g pl (robots.zip steps) tgs 0 with
      | error e => rw [hdyn] at hok; cases hok
      | ok Dyn =>
        rw [hdyn] at hok
        cases hcol : mpCollocPhases sch (robots.zip steps) 0 0 with
        | error e => rw [hcol] at hok; cases hok
        | ok Col =>
          rw [hcol] at hok
          cases hok
          have hpairs : ∀ pr ∈ robots.zip steps, 1 ≤ pr.2 ∧ pr.1.joints ≠ [] := by
            intro pr hpr
            obtain ⟨h1, h2⟩ := List.of_mem_zip hpr
            exact ⟨hsteps pr.2 h2, hjoints pr.1 h1⟩
          have hziplen : (robots.zip steps).length = robots.length := by
            rw [List.length_zip, hlen]
            omega
          have hiff := mpCollocPhases_spec sch (robots.zip steps) 0 0 Col
            hcol hpairs
          intro q
          constructor
          · rintro ⟨f, hfm, hfk⟩
            rcases List.mem_append.mp hfm with hc | hc
            · rcases List.mem_append.mp hc with hc2 | hc2
              · exact absurd hfk (dynamicsFactorGraph_no_phase _ 0 g pl
                  D0 hd0 f hc2 q)
              · exact absurd hfk (mpDynPhases_no_phase g pl
                  (robots.zip steps) tgs 0 Dyn hdyn htgs f hc2 q)
            · have := (hiff q).mp ⟨f, hc, hfk⟩
              omega
          · intro hq
            obtain ⟨f, hfm, hfk⟩ := (hiff q).mpr (by omega)
            exact ⟨f, List.mem_append_right (D0 ++ Dyn) hfm, hfk⟩
  · intro r t ph
    exact ⟨mpCollocJoints_euler_eq t ph r.joints,
      mpCollocJoints_trap_eq t ph r.joints⟩
  · intro j t ph asg
    refine ⟨rfl, rfl, ?_, ?_⟩
    · show asg (.jointAngle j t) +
        1/2 * (asg (.phase ph) * asg (.jointVel j t)) +
        1/2 * (asg (.phase ph) * asg (.jointVel j (t + 1))) -
        asg (.jointAngle j (t + 1)) = _
      ring
    · show asg (.jointVel j t) +
        1/2 * (asg (.phase ph) * asg (.jointAccel j t)) +
        1/2 * (asg (.phase ph) * asg (.jointAccel j (t + 1))) -
        asg (.jointVel j (t + 1)) = _
      ring

/-- Concrete robot for the C8 witness. -/
def c8Robot : UniversalRobot :=
  ⟨[⟨0, "base", true, [0]⟩, ⟨1, "arm", false, [0]⟩], [⟨0, "j", 0, 1⟩], "base"⟩

/-- The concrete two-phase trajectory graph of the C8 witness. -/
def c8G : List Factor :=
  (multiPhaseTrajectoryFG [c8Robot, c8Robot] [1, 1] [[]] .Euler
    none none).toOption.getD []

/-- Witness for C8: a two-phase assembly (one step per phase, empty transition
graph) contains `PhaseKey(0)` and `PhaseKey(1)` among its keys and no other
phase key. -/
theorem C8_witness :
    ((∃ f ∈ c8G, DynKey.phase 0 ∈ factorKeys f) ↔ 0 < 2) ∧
    ((∃ f ∈ c8G, DynKey.phase 2 ∈ factorKeys f) ↔ 2 < 2) := by
  have h := (C8_phase_duration_variables [c8Robot, c8Robot] [1, 1] [[]]
    .Euler none none c8G (by rfl) (by decide) (by decide) (by decide)
    (by
      intro tg htg f hf q
      simp only [List.mem_cons, List.not_mem_nil, or_false] at htg
      subst htg
      cases hf)).1
  exact ⟨h 0, h 2⟩

end GTD
